import Mathlib

/-!
Verification of the page-replacement simulator (Page_Replacement.py).

The Python class `PageReplacementSimulator` is embedded shallowly:

* page identifiers are integers (`main` parses the reference string with `int`),
  so `PageID := Int`, and the frame count is likewise an `Int`;
* the two kinds of strings appended to `self.log`
  (`f"Page {removed} replaced by {page}"` and `f"Memory State: {list(state)}"`)
  are modelled structurally as `LogEntry.replacement` and `LogEntry.snapshot`;
* the mutable fields `page_hits`, `page_faults`, `log` form `SimulationResult`;
  `reset_metrics` is the freshly reset value each policy starts from;
* each policy method becomes a step function on its own state type plus a fold
  (`policyRun`) over the reference string; the step function returns `none`
  exactly where the Python code would raise (removing from, or minimising /
  maximising over, an empty container in the eviction branch), so a completed
  run is a `some` value;
* `collections.deque` and `collections.OrderedDict` are lists in queue order
  (front first); the plain dicts (`cache`, `frequency` in `lfu`) are
  association lists in insertion order, matching Python dict semantics;
  `min(...)`/`max(...)` with a key are folds that keep the earlier element on
  ties, as Python's `min`/`max` do;
* the `set()` used by `optimal` has implementation-defined iteration order in
  Python; it is modelled as a list in insertion order, one fixed deterministic
  convention.  No theorem below about `optimal` depends on the tie-break
  order: eviction ties in `optimal` arise only between pages with no future
  occurrence, which never affects hit/fault counts or set sizes.
-/

/-- Page identifiers are the integers parsed by `main`. -/
abbrev PageID := Int

/-- One entry of `self.log`: either the replacement record emitted in the
eviction branch or the memory-state snapshot emitted by `log_state`. -/
inductive LogEntry where
  | replacement (evicted incoming : PageID)
  | snapshot (resident : List PageID)
deriving DecidableEq, Repr

/-- The accounting fields of the simulator: `page_hits`, `page_faults` and
`log`. -/
structure SimulationResult where
  page_hits : Nat
  page_faults : Nat
  log : List LogEntry
deriving DecidableEq, Repr

/-- The state produced by `reset_metrics`: zero counters and an empty log. -/
def reset_metrics : SimulationResult := ⟨0, 0, []⟩

/-- `log_state`: append a memory-state snapshot to the log. -/
def log_state (res : SimulationResult) (state : List PageID) : SimulationResult :=
  { res with log := res.log ++ [LogEntry.snapshot state] }

/-- The shared loop of the four policy methods: fold a step function over the
reference string, threading the possibility of a raised exception.  The step
function also receives the remaining references (the part of the reference
string strictly after the current page), which only `optimal` inspects. -/
def policyRun {σ : Type} (step : σ → PageID → List PageID → Option σ) :
    σ → List PageID → Option σ
  | st, [] => some st
  | st, page :: rest => (step st page rest).bind (fun st1 => policyRun step st1 rest)

/-- The list of states reached by the loop: the initial state, then the state
after each successfully executed iteration (truncated where the Python code
would raise). -/
def policyStates {σ : Type} (step : σ → PageID → List PageID → Option σ) :
    σ → List PageID → List σ
  | st, [] => [st]
  | st, page :: rest =>
    st :: (match step st page rest with
           | some st1 => policyStates step st1 rest
           | none => [])

/-! ### FIFO -/

/-- State of the `fifo` method: the metrics plus the `collections.deque`,
front of the queue first. -/
structure FifoState where
  res : SimulationResult
  queue : List PageID
deriving DecidableEq, Repr

/-- One iteration of the `fifo` loop.  `none` models the `IndexError` raised
by `popleft` on an empty deque. -/
def fifoStep (frames : Int) (st : FifoState) (page : PageID) : Option FifoState :=
  if page ∈ st.queue then
    some ⟨log_state { st.res with page_hits := st.res.page_hits + 1 } st.queue, st.queue⟩
  else if (st.queue.length : Int) ≥ frames then
    match st.queue with
    | [] => none
    | removed :: rest =>
      let res1 : SimulationResult :=
        { st.res with
          page_faults := st.res.page_faults + 1
          log := st.res.log ++ [LogEntry.replacement removed page] }
      some ⟨log_state res1 (rest ++ [page]), rest ++ [page]⟩
  else
    some ⟨log_state { st.res with page_faults := st.res.page_faults + 1 } (st.queue ++ [page]),
          st.queue ++ [page]⟩

/-- The `fifo` method: a full run over the reference string. -/
def fifo (frames : Int) (reference_string : List PageID) : Option SimulationResult :=
  (policyRun (fun st page _ => fifoStep frames st page) ⟨reset_metrics, []⟩
    reference_string).map FifoState.res

/-- All intermediate states of a `fifo` run. -/
def fifoTrace (frames : Int) (reference_string : List PageID) : List FifoState :=
  policyStates (fun st page _ => fifoStep frames st page) ⟨reset_metrics, []⟩ reference_string

/-! ### LRU -/

/-- State of the `lru` method: the metrics plus the keys of the
`collections.OrderedDict`, least recently used first. -/
structure LruState where
  res : SimulationResult
  cache : List PageID
deriving DecidableEq, Repr

/-- One iteration of the `lru` loop.  A hit moves the page to the
most-recently-used end (`move_to_end`); a fault with a full cache pops the
least recently used page (`popitem(last=False)`); `none` models the
`KeyError` raised by `popitem` on an empty dict. -/
def lruStep (frames : Int) (st : LruState) (page : PageID) : Option LruState :=
  if page ∈ st.cache then
    some ⟨log_state { st.res with page_hits := st.res.page_hits + 1 }
            (st.cache.erase page ++ [page]),
          st.cache.erase page ++ [page]⟩
  else if (st.cache.length : Int) ≥ frames then
    match st.cache with
    | [] => none
    | removed :: rest =>
      let res1 : SimulationResult :=
        { st.res with
          page_faults := st.res.page_faults + 1
          log := st.res.log ++ [LogEntry.replacement removed page] }
      some ⟨log_state res1 (rest ++ [page]), rest ++ [page]⟩
  else
    some ⟨log_state { st.res with page_faults := st.res.page_faults + 1 } (st.cache ++ [page]),
          st.cache ++ [page]⟩

/-- The `lru` method: a full run over the reference string. -/
def lru (frames : Int) (reference_string : List PageID) : Option SimulationResult :=
  (policyRun (fun st page _ => lruStep frames st page) ⟨reset_metrics, []⟩
    reference_string).map LruState.res

/-- All intermediate states of an `lru` run. -/
def lruTrace (frames : Int) (reference_string : List PageID) : List LruState :=
  policyStates (fun st page _ => lruStep frames st page) ⟨reset_metrics, []⟩ reference_string

/-! ### LFU -/

/-- Lookup in an association list, defaulting to `0`: the read side of
`collections.Counter`. -/
def lookupFreq : List (PageID × Nat) → PageID → Nat
  | [], _ => 0
  | (q, n) :: rest, p => if q = p then n else lookupFreq rest p

/-- `frequency[page] += 1` on a `Counter`: bump an existing key in place, or
append the key with count `1` (Python dicts keep insertion order). -/
def bumpFreq : List (PageID × Nat) → PageID → List (PageID × Nat)
  | [], p => [(p, 1)]
  | (q, n) :: rest, p => if q = p then (q, n + 1) :: rest else (q, n) :: bumpFreq rest p

/-- Strict lexicographic order on the pairs `(frequency[k], cache[k])` used as
the `min` key in `lfu`. -/
def keyLt (a b : Nat × Nat) : Prop :=
  a.1 < b.1 ∨ (a.1 = b.1 ∧ a.2 < b.2)

instance (a b : Nat × Nat) : Decidable (keyLt a b) := by
  unfold keyLt; infer_instance

/-- `min(cache, key=lambda k: (frequency[k], cache[k]))`: fold over the dict
entries in insertion order, keeping the earlier entry on ties exactly as
Python's `min` does. -/
def least_used_entry (freq : List (PageID × Nat)) (x : PageID × Nat)
    (xs : List (PageID × Nat)) : PageID × Nat :=
  xs.foldl (fun best y =>
    if keyLt (lookupFreq freq y.1, y.2) (lookupFreq freq best.1, best.2) then y else best) x

/-- State of the `lfu` method: the metrics, the dict `cache` mapping each
resident page to its insertion tag `len(self.log)` (in insertion order), and
the `Counter` `frequency`. -/
structure LfuState where
  res : SimulationResult
  cache : List (PageID × Nat)
  frequency : List (PageID × Nat)
deriving DecidableEq, Repr

/-- One iteration of the `lfu` loop.  The frequency counter is bumped first,
before the hit/fault classification.  `none` models the `ValueError` raised
by `min` on an empty dict. -/
def lfuStep (frames : Int) (st : LfuState) (page : PageID) : Option LfuState :=
  let freq := bumpFreq st.frequency page
  if page ∈ st.cache.map Prod.fst then
    some ⟨log_state { st.res with page_hits := st.res.page_hits + 1 } (st.cache.map Prod.fst),
          st.cache, freq⟩
  else if (st.cache.length : Int) ≥ frames then
    match st.cache with
    | [] => none
    | x :: xs =>
      let least := least_used_entry freq x xs
      let cache2 := (x :: xs).eraseP (fun e => e.1 == least.1) ++
        [(page, st.res.log.length + 1)]
      let res1 : SimulationResult :=
        { st.res with
          page_faults := st.res.page_faults + 1
          log := st.res.log ++ [LogEntry.replacement least.1 page] }
      some ⟨log_state res1 (cache2.map Prod.fst), cache2, freq⟩
  else
    let cache2 := st.cache ++ [(page, st.res.log.length)]
    some ⟨log_state { st.res with page_faults := st.res.page_faults + 1 }
            (cache2.map Prod.fst),
          cache2, freq⟩

/-- The `lfu` method: a full run over the reference string. -/
def lfu (frames : Int) (reference_string : List PageID) : Option SimulationResult :=
  (policyRun (fun st page _ => lfuStep frames st page) ⟨reset_metrics, [], []⟩
    reference_string).map LfuState.res

/-- All intermediate states of an `lfu` run. -/
def lfuTrace (frames : Int) (reference_string : List PageID) : List LfuState :=
  policyStates (fun st page _ => lfuStep frames st page) ⟨reset_metrics, [], []⟩
    reference_string

/-! ### Optimal -/

/-- `reference_string[i+1:].index(p)` guarded by membership: the index of the
next occurrence of `p` in the remaining references, `none` when `p` never
occurs again (`float('inf')` in the source). -/
def nextUse (p : PageID) : List PageID → Option Nat
  | [] => none
  | q :: rest => if q = p then some 0 else (nextUse p rest).map (· + 1)

/-- Strict comparison of future-use distances, `none` playing the role of
`float('inf')`. -/
def futureGt : Option Nat → Option Nat → Prop
  | none, none => False
  | none, some _ => True
  | some _, none => False
  | some a, some b => b < a

instance (a b : Option Nat) : Decidable (futureGt a b) := by
  unfold futureGt
  rcases a with _ | a <;> rcases b with _ | b <;> infer_instance

/-- `max(future_indices, key=future_indices.get)`: fold over the resident
pages in order, keeping the earlier page on ties exactly as Python's `max`
does. -/
def farthest_page (future : List PageID) (x : PageID) (xs : List PageID) : PageID :=
  xs.foldl (fun best y => if futureGt (nextUse y future) (nextUse best future) then y else best) x

/-- State of the `optimal` method: the metrics plus the resident set.  The
Python `set` has implementation-defined iteration order; it is modelled as a
list in insertion order (see the header comment). -/
structure OptState where
  res : SimulationResult
  cache : List PageID
deriving DecidableEq, Repr

/-- One iteration of the `optimal` loop; `future` is the part of the
reference string strictly after the current page.  `none` models the
`ValueError` raised by `max` on an empty dict of future indices. -/
def optimalStep (frames : Int) (st : OptState) (page : PageID) (future : List PageID) :
    Option OptState :=
  if page ∈ st.cache then
    some ⟨log_state { st.res with page_hits := st.res.page_hits + 1 } st.cache, st.cache⟩
  else if (st.cache.length : Int) ≥ frames then
    match st.cache with
    | [] => none
    | x :: xs =>
      let to_replace := farthest_page future x xs
      let res1 : SimulationResult :=
        { st.res with
          page_faults := st.res.page_faults + 1
          log := st.res.log ++ [LogEntry.replacement to_replace page] }
      some ⟨log_state res1 ((x :: xs).erase to_replace ++ [page]),
            (x :: xs).erase to_replace ++ [page]⟩
  else
    some ⟨log_state { st.res with page_faults := st.res.page_faults + 1 } (st.cache ++ [page]),
          st.cache ++ [page]⟩

/-- The `optimal` method: a full run over the reference string.  `policyRun`
hands each step the references strictly after the current index, which is
exactly `reference_string[i+1:]`. -/
def optimal (frames : Int) (reference_string : List PageID) : Option SimulationResult :=
  (policyRun (optimalStep frames) ⟨reset_metrics, []⟩ reference_string).map OptState.res

/-- All intermediate states of an `optimal` run. -/
def optimalTrace (frames : Int) (reference_string : List PageID) : List OptState :=
  policyStates (optimalStep frames) ⟨reset_metrics, []⟩ reference_string

/-! ### Reporting and `main` -/

/-- The percentage computations of `display_results`, over exact rationals.
Python's true division raises `ZeroDivisionError` when
`len(self.reference_string) == 0`; that abort is modelled as `none`.  There
is no guard in the source: the division is attempted unconditionally. -/
def display_results (res : SimulationResult) (reference_string : List PageID) :
    Option (ℚ × ℚ) :=
  if reference_string.length = 0 then none
  else some ((res.page_faults : ℚ) / (reference_string.length : ℚ) * 100,
             (res.page_hits : ℚ) / (reference_string.length : ℚ) * 100)

/-- The body of `main` after the two `input` calls: run and display all four
policies in order.  There is no validation of `frames` or of the reference
string; any raised exception (`none`) aborts the program. -/
def main_run (frames : Int) (reference_string : List PageID) : Option Unit := do
  let r1 ← fifo frames reference_string
  let _ ← display_results r1 reference_string
  let r2 ← lru frames reference_string
  let _ ← display_results r2 reference_string
  let r3 ← lfu frames reference_string
  let _ ← display_results r3 reference_string
  let r4 ← optimal frames reference_string
  let _ ← display_results r4 reference_string
  pure ()

/-! ### Specification predicates used by the theorems -/

/-- The block of log entries one loop iteration emits: a single snapshot, or
a replacement record immediately followed by a snapshot. -/
def isStepChunk (c : List LogEntry) : Prop :=
  (∃ s, c = [LogEntry.snapshot s]) ∨
  (∃ e p s, c = [LogEntry.replacement e p, LogEntry.snapshot s])

/-- Accounting invariant after `n` iterations: one hit or fault per step, and
the log splits into one step chunk per step, in order. -/
def TotalInv (res : SimulationResult) (n : Nat) : Prop :=
  res.page_hits + res.page_faults = n ∧
  ∃ chunks : List (List LogEntry), res.log = chunks.flatten ∧ chunks.length = n ∧
    ∀ c ∈ chunks, isStepChunk c

/-- Resident-set invariant: the resident pages are distinct, all already
referenced, and exactly `min frames x` of them are resident where `x` counts
the distinct pages referenced so far. -/
def SizeInv (frames : Int) (resid : List PageID) (seen : Finset PageID) : Prop :=
  resid.Nodup ∧ (∀ q ∈ resid, q ∈ seen) ∧
  (resid.length : Int) = min frames (seen.card : Int)

/-- Invariant for runs in which the frame count covers every page of the
reference string: the resident set is exactly the set of pages seen so far,
each fault is the first reference to a page, and no replacement is logged. -/
def NoEvictInv (U seen : Finset PageID) (resid : List PageID)
    (res : SimulationResult) : Prop :=
  resid.Nodup ∧ resid.toFinset = seen ∧ seen ⊆ U ∧
  res.page_faults = seen.card ∧
  ∀ e ∈ res.log, ∃ s, e = LogEntry.snapshot s

/-- Well-formedness of an `lfu` state: insertion tags strictly increase along
the dict and stay below the log length, so tags of resident pages are
pairwise distinct. -/
def LfuWf (st : LfuState) : Prop :=
  (st.cache.map Prod.snd).Pairwise (· < ·) ∧ ∀ e ∈ st.cache, e.2 < st.res.log.length

/-- With a single frame, the resident container is empty or a singleton. -/
def singletonShape (resid : List PageID) : Option PageID → Prop
  | none => resid = []
  | some q => resid = [q]

/-- With a single frame, the `lfu` dict is empty or a singleton with some
insertion tag. -/
def lfuSingletonShape (cache : List (PageID × Nat)) : Option PageID → Prop
  | none => cache = []
  | some q => ∃ t, cache = [(q, t)]

/-- Cost of one reference with a single frame: a hit exactly when the page
repeats the immediately preceding reference. -/
def refCost : Option PageID → PageID → Nat
  | none, _ => 1
  | some q, p => if p = q then 0 else 1

/-- Fault count of a run with a single frame, `r` being the currently
resident page. -/
def faults1 : Option PageID → List PageID → Nat
  | _, [] => 0
  | r, p :: rest => refCost r p + faults1 (some p) rest

/-! ### Generic lemmas about the shared loop -/

theorem policyRun_nil {σ : Type} (step : σ → PageID → List PageID → Option σ) (st : σ) :
    policyRun step st [] = some st := rfl

theorem policyRun_cons {σ : Type} (step : σ → PageID → List PageID → Option σ) (st : σ)
    (page : PageID) (rest : List PageID) :
    policyRun step st (page :: rest)
      = (step st page rest).bind (fun st1 => policyRun step st1 rest) := rfl

/-- Forward-invariant argument for the loop: if every iteration preserves `P`
(updating a ghost value `g` by the page just referenced), a complete run is
reached and preserves `P`. -/
theorem policyRun_ghost {σ γ : Type} (step : σ → PageID → List PageID → Option σ)
    (upd : γ → PageID → γ) (Q : PageID → Prop) (P : σ → γ → Prop)
    (hstep : ∀ st p future g, Q p → P st g →
      ∃ st1, step st p future = some st1 ∧ P st1 (upd g p)) :
    ∀ (refs : List PageID) (st : σ) (g : γ), (∀ p ∈ refs, Q p) → P st g →
      ∃ st1, policyRun step st refs = some st1 ∧ P st1 (refs.foldl upd g) := by
  intro refs
  induction refs with
  | nil => exact fun st g _ hP => ⟨st, rfl, hP⟩
  | cons p rest ih =>
    intro st g hQ hP
    obtain ⟨st1, hs1, hP1⟩ := hstep st p rest g (hQ p (List.mem_cons_self p rest)) hP
    obtain ⟨st2, hs2, hP2⟩ :=
      ih st1 (upd g p) (fun q hq => hQ q (List.mem_cons_of_mem p hq)) hP1
    refine ⟨st2, ?_, hP2⟩
    rw [policyRun_cons, hs1]
    simpa using hs2

/-- The same invariant argument for the list of intermediate states: the
trace has one state per processed reference plus the initial one, and the
state after `i` iterations satisfies `P` at the ghost value folded over the
first `i` references. -/
theorem policyStates_ghost {σ γ : Type} (step : σ → PageID → List PageID → Option σ)
    (upd : γ → PageID → γ) (Q : PageID → Prop) (P : σ → γ → Prop)
    (hstep : ∀ st p future g, Q p → P st g →
      ∃ st1, step st p future = some st1 ∧ P st1 (upd g p)) :
    ∀ (refs : List PageID) (st : σ) (g : γ), (∀ p ∈ refs, Q p) → P st g →
      (policyStates step st refs).length = refs.length + 1 ∧
      ∀ i ≤ refs.length, ∃ st2, (policyStates step st refs).get? i = some st2 ∧
        P st2 ((refs.take i).foldl upd g) := by
  intro refs
  induction refs with
  | nil =>
    intro st g _ hP
    refine ⟨rfl, ?_⟩
    intro i hi
    have hi0 : i = 0 := Nat.le_zero.mp hi
    subst hi0
    exact ⟨st, rfl, hP⟩
  | cons p rest ih =>
    intro st g hQ hP
    obtain ⟨st1, hs1, hP1⟩ := hstep st p rest g (hQ p (List.mem_cons_self p rest)) hP
    obtain ⟨hlen, hget⟩ :=
      ih st1 (upd g p) (fun q hq => hQ q (List.mem_cons_of_mem p hq)) hP1
    have hunfold : policyStates step st (p :: rest) = st :: policyStates step st1 rest := by
      simp [policyStates, hs1]
    constructor
    · rw [hunfold]
      simp [hlen]
    · intro i hi
      match i with
      | 0 => exact ⟨st, by rw [hunfold]; rfl, by simpa using hP⟩
      | Nat.succ j =>
        obtain ⟨st2, hg2, hP2⟩ := hget j (Nat.lt_succ_iff.mp (Nat.succ_le_iff.mp hi))
        refine ⟨st2, ?_, ?_⟩
        · rw [hunfold]
          simpa using hg2
        · simpa [List.take_succ_cons] using hP2

theorem foldl_count_eq_length (refs : List PageID) :
    ∀ n : Nat, refs.foldl (fun m _ => m + 1) n = n + refs.length := by
  induction refs with
  | nil => intro n; simp
  | cons p rest ih => intro n; simp [ih]; omega

theorem foldl_insert_eq_union (refs : List PageID) :
    ∀ s : Finset PageID, refs.foldl (fun t p => insert p t) s = s ∪ refs.toFinset := by
  induction refs with
  | nil => intro s; simp
  | cons p rest ih =>
    intro s
    rw [List.foldl_cons, ih, List.toFinset_cons, Finset.union_insert, Finset.insert_union]

theorem foldl_refCost_eq_faults1 (refs : List PageID) :
    ∀ (r : Option PageID) (n : Nat),
      (refs.foldl (fun g p => (some p, g.2 + refCost g.1 p)) (r, n)).2
        = n + faults1 r refs := by
  induction refs with
  | nil => intro r n; simp [faults1]
  | cons p rest ih =>
    intro r n
    rw [List.foldl_cons, ih, faults1]
    dsimp only
    omega

/-- A fold that at each step keeps either the accumulator or the new element
selects a member of the list (cons'd with the start value). -/
theorem foldl_choose_mem {α : Type} (f : α → α → α)
    (hf : ∀ b y, f b y = b ∨ f b y = y) :
    ∀ (xs : List α) (x : α), xs.foldl f x ∈ x :: xs := by
  intro xs
  induction xs with
  | nil => intro x; exact List.mem_cons_self x []
  | cons y ys ih =>
    intro x
    have h1 := ih (f x y)
    rw [List.foldl_cons]
    rcases List.mem_cons.mp h1 with h2 | h2
    · rw [h2]
      rcases hf x y with h3 | h3 <;> rw [h3] <;> simp
    · simp [List.mem_cons_of_mem, h2]

/-! ### The lexicographic key of `lfu` and its fold -/

theorem keyLt_irrefl (a : Nat × Nat) : ¬ keyLt a a := by
  simp [keyLt]

theorem keyLt_trans {a b c : Nat × Nat} (h1 : keyLt a b) (h2 : keyLt b c) : keyLt a c := by
  obtain ⟨a1, a2⟩ := a
  obtain ⟨b1, b2⟩ := b
  obtain ⟨c1, c2⟩ := c
  simp only [keyLt] at h1 h2 ⊢
  omega

theorem keyLt_connex {a b : Nat × Nat} (h : a ≠ b) : keyLt a b ∨ keyLt b a := by
  obtain ⟨a1, a2⟩ := a
  obtain ⟨b1, b2⟩ := b
  rcases Nat.lt_trichotomy a1 b1 with h1 | h1 | h1
  · exact Or.inl (Or.inl h1)
  · subst h1
    rcases Nat.lt_trichotomy a2 b2 with h2 | h2 | h2
    · exact Or.inl (Or.inr ⟨rfl, h2⟩)
    · exact absurd (by rw [h2]) h
    · exact Or.inr (Or.inr ⟨rfl, h2⟩)
  · exact Or.inr (Or.inl h1)

/-- The fold implementing `min(..., key=...)` picks an element no other
element strictly beats. -/
theorem foldl_min_not_lt {α : Type} (key : α → Nat × Nat) :
    ∀ (xs : List α) (x : α), ∀ a ∈ x :: xs,
      ¬ keyLt (key a)
        (key (xs.foldl (fun best y => if keyLt (key y) (key best) then y else best) x)) := by
  intro xs
  induction xs with
  | nil =>
    intro x a ha
    have hax : a = x := by simpa using ha
    subst hax
    exact keyLt_irrefl (key a)
  | cons y ys ih =>
    intro x a ha hlt
    rw [List.foldl_cons] at hlt
    by_cases hxy : keyLt (key y) (key x)
    · rw [if_pos hxy] at hlt
      rcases List.mem_cons.mp ha with h1 | h1
      · rw [h1] at hlt
        exact ih y y (List.mem_cons_self y ys) (keyLt_trans hxy hlt)
      · exact ih y a h1 hlt
    · rw [if_neg hxy] at hlt
      rcases List.mem_cons.mp ha with h1 | h1
      · rw [h1] at hlt
        exact ih x x (List.mem_cons_self x ys) hlt
      · rcases List.mem_cons.mp h1 with h2 | h2
        · rw [h2] at hlt
          rcases eq_or_ne (key y) (key x) with heq | hne
          · rw [heq] at hlt
            exact ih x x (List.mem_cons_self x ys) hlt
          · rcases keyLt_connex hne with h3 | h3
            · exact hxy h3
            · exact ih x x (List.mem_cons_self x ys) (keyLt_trans h3 hlt)
        · exact ih x a (List.mem_cons_of_mem x h2) hlt

theorem least_used_entry_mem (freq : List (PageID × Nat)) (x : PageID × Nat)
    (xs : List (PageID × Nat)) : least_used_entry freq x xs ∈ x :: xs := by
  unfold least_used_entry
  apply foldl_choose_mem
  intro b y
  by_cases h : keyLt (lookupFreq freq y.1, y.2) (lookupFreq freq b.1, b.2)
  · rw [if_pos h]; right; rfl
  · rw [if_neg h]; left; rfl

theorem least_used_entry_min (freq : List (PageID × Nat)) (x : PageID × Nat)
    (xs : List (PageID × Nat)) :
    ∀ a ∈ x :: xs, ¬ keyLt (lookupFreq freq a.1, a.2)
      (lookupFreq freq (least_used_entry freq x xs).1, (least_used_entry freq x xs).2) := by
  intro a ha
  exact foldl_min_not_lt (fun e => (lookupFreq freq e.1, e.2)) xs x a ha

theorem farthest_page_mem (future : List PageID) (x : PageID) (xs : List PageID) :
    farthest_page future x xs ∈ x :: xs := by
  unfold farthest_page
  apply foldl_choose_mem
  intro b y
  by_cases h : futureGt (nextUse y future) (nextUse b future)
  · rw [if_pos h]; right; rfl
  · rw [if_neg h]; left; rfl

/-! ### Association-list helpers for `lfu` -/

theorem map_fst_eraseP (a : PageID) :
    ∀ l : List (PageID × Nat),
      (l.eraseP (fun e => e.1 == a)).map Prod.fst = (l.map Prod.fst).erase a := by
  intro l
  induction l with
  | nil => rfl
  | cons e rest ih =>
    by_cases h : e.1 = a
    · simp [List.eraseP_cons, List.erase_cons, h]
    · simp [List.eraseP_cons, List.erase_cons, h, ih]

theorem lookupFreq_bump_self (p : PageID) :
    ∀ l : List (PageID × Nat), lookupFreq (bumpFreq l p) p = lookupFreq l p + 1 := by
  intro l
  induction l with
  | nil => simp [bumpFreq, lookupFreq]
  | cons e rest ih =>
    obtain ⟨q, n⟩ := e
    simp only [bumpFreq]
    by_cases h : q = p
    · rw [if_pos h]
      simp only [lookupFreq]
      rw [if_pos h, if_pos h]
    · rw [if_neg h]
      simp only [lookupFreq]
      rw [if_neg h, if_neg h, ih]

theorem lookupFreq_bump_other (p q : PageID) (hqp : q ≠ p) :
    ∀ l : List (PageID × Nat), lookupFreq (bumpFreq l p) q = lookupFreq l q := by
  have hpq : ¬ p = q := fun h => hqp h.symm
  intro l
  induction l with
  | nil =>
    simp only [bumpFreq, lookupFreq]
    rw [if_neg hpq]
  | cons e rest ih =>
    obtain ⟨r, n⟩ := e
    simp only [bumpFreq]
    by_cases h : r = p
    · rw [if_pos h]
      simp only [lookupFreq]
      rw [if_neg (by rw [h]; exact hpq), if_neg (by rw [h]; exact hpq)]
    · rw [if_neg h]
      simp only [lookupFreq]
      by_cases h2 : r = q
      · rw [if_pos h2, if_pos h2]
      · rw [if_neg h2, if_neg h2, ih]

/-! ### Branch lemmas for the step functions -/

theorem fifoStep_of_mem (frames : Int) {st : FifoState} {page : PageID}
    (h : page ∈ st.queue) :
    fifoStep frames st page
      = some ⟨log_state { st.res with page_hits := st.res.page_hits + 1 } st.queue,
              st.queue⟩ := by
  simp [fifoStep, h]

theorem fifoStep_grow (frames : Int) {st : FifoState} {page : PageID}
    (h : page ∉ st.queue) (h2 : ¬ ((st.queue.length : Int) ≥ frames)) :
    fifoStep frames st page
      = some ⟨log_state { st.res with page_faults := st.res.page_faults + 1 }
                (st.queue ++ [page]), st.queue ++ [page]⟩ := by
  simp [fifoStep, h, h2]

theorem fifoStep_evict (frames : Int) {res : SimulationResult} {removed : PageID}
    {rest : List PageID} {page : PageID} (h : page ∉ removed :: rest)
    (h2 : (((removed :: rest).length : Nat) : Int) ≥ frames) :
    fifoStep frames ⟨res, removed :: rest⟩ page
      = some ⟨log_state
                { res with
                  page_faults := res.page_faults + 1
                  log := res.log ++ [LogEntry.replacement removed page] }
                (rest ++ [page]), rest ++ [page]⟩ := by
  have h3 : frames ≤ (rest.length : Int) + 1 := by simpa using h2
  simp [fifoStep, h, h3]

theorem lruStep_of_mem (frames : Int) {st : LruState} {page : PageID}
    (h : page ∈ st.cache) :
    lruStep frames st page
      = some ⟨log_state { st.res with page_hits := st.res.page_hits + 1 }
                (st.cache.erase page ++ [page]), st.cache.erase page ++ [page]⟩ := by
  simp [lruStep, h]

theorem lruStep_grow (frames : Int) {st : LruState} {page : PageID}
    (h : page ∉ st.cache) (h2 : ¬ ((st.cache.length : Int) ≥ frames)) :
    lruStep frames st page
      = some ⟨log_state { st.res with page_faults := st.res.page_faults + 1 }
                (st.cache ++ [page]), st.cache ++ [page]⟩ := by
  simp [lruStep, h, h2]

theorem lruStep_evict (frames : Int) {res : SimulationResult} {removed : PageID}
    {rest : List PageID} {page : PageID} (h : page ∉ removed :: rest)
    (h2 : (((removed :: rest).length : Nat) : Int) ≥ frames) :
    lruStep frames ⟨res, removed :: rest⟩ page
      = some ⟨log_state
                { res with
                  page_faults := res.page_faults + 1
                  log := res.log ++ [LogEntry.replacement removed page] }
                (rest ++ [page]), rest ++ [page]⟩ := by
  have h3 : frames ≤ (rest.length : Int) + 1 := by simpa using h2
  simp [lruStep, h, h3]

theorem lfuStep_of_mem (frames : Int) {st : LfuState} {page : PageID}
    (h : page ∈ st.cache.map Prod.fst) :
    lfuStep frames st page
      = some ⟨log_state { st.res with page_hits := st.res.page_hits + 1 }
                (st.cache.map Prod.fst), st.cache, bumpFreq st.frequency page⟩ := by
  simp [lfuStep, h]

theorem lfuStep_grow (frames : Int) {st : LfuState} {page : PageID}
    (h : page ∉ st.cache.map Prod.fst) (h2 : ¬ ((st.cache.length : Int) ≥ frames)) :
    lfuStep frames st page
      = some ⟨log_state { st.res with page_faults := st.res.page_faults + 1 }
                ((st.cache ++ [(page, st.res.log.length)]).map Prod.fst),
              st.cache ++ [(page, st.res.log.length)], bumpFreq st.frequency page⟩ := by
  simp [lfuStep, h, h2]

theorem lfuStep_evict (frames : Int) {res : SimulationResult} {x : PageID × Nat}
    {xs : List (PageID × Nat)} {freq0 : List (PageID × Nat)} {page : PageID}
    (h : page ∉ (x :: xs).map Prod.fst)
    (h2 : (((x :: xs).length : Nat) : Int) ≥ frames) :
    lfuStep frames ⟨res, x :: xs, freq0⟩ page
      = some ⟨log_state
                { res with
                  page_faults := res.page_faults + 1
                  log := res.log ++ [LogEntry.replacement
                    (least_used_entry (bumpFreq freq0 page) x xs).1 page] }
                (((x :: xs).eraseP
                    (fun e => e.1 == (least_used_entry (bumpFreq freq0 page) x xs).1) ++
                  [(page, res.log.length + 1)]).map Prod.fst),
              (x :: xs).eraseP
                  (fun e => e.1 == (least_used_entry (bumpFreq freq0 page) x xs).1) ++
                [(page, res.log.length + 1)],
              bumpFreq freq0 page⟩ := by
  have h1 : page ∉ x.1 :: xs.map Prod.fst := by simpa using h
  have h3 : frames ≤ (xs.length : Int) + 1 := by simpa using h2
  simp [lfuStep, h1, h3]

theorem optimalStep_of_mem (frames : Int) {st : OptState} {page : PageID}
    (future : List PageID) (h : page ∈ st.cache) :
    optimalStep frames st page future
      = some ⟨log_state { st.res with page_hits := st.res.page_hits + 1 } st.cache,
              st.cache⟩ := by
  simp [optimalStep, h]

theorem optimalStep_grow (frames : Int) {st : OptState} {page : PageID}
    (future : List PageID) (h : page ∉ st.cache)
    (h2 : ¬ ((st.cache.length : Int) ≥ frames)) :
    optimalStep frames st page future
      = some ⟨log_state { st.res with page_faults := st.res.page_faults + 1 }
                (st.cache ++ [page]), st.cache ++ [page]⟩ := by
  simp [optimalStep, h, h2]

theorem optimalStep_evict (frames : Int) {res : SimulationResult} {x : PageID}
    {xs : List PageID} {page : PageID} (future : List PageID)
    (h : page ∉ x :: xs) (h2 : (((x :: xs).length : Nat) : Int) ≥ frames) :
    optimalStep frames ⟨res, x :: xs⟩ page future
      = some ⟨log_state
                { res with
                  page_faults := res.page_faults + 1
                  log := res.log ++ [LogEntry.replacement (farthest_page future x xs) page] }
                ((x :: xs).erase (farthest_page future x xs) ++ [page]),
              (x :: xs).erase (farthest_page future x xs) ++ [page]⟩ := by
  have h3 : frames ≤ (xs.length : Int) + 1 := by simpa using h2
  simp [optimalStep, h, h3]

/-! ### Accounting and log-shape invariant (one chunk per iteration) -/

theorem TotalInv.step {res res1 : SimulationResult} {n : Nat} (h : TotalInv res n)
    (c : List LogEntry) (hc : isStepChunk c) (hlog : res1.log = res.log ++ c)
    (hcount : res1.page_hits + res1.page_faults = res.page_hits + res.page_faults + 1) :
    TotalInv res1 (n + 1) := by
  obtain ⟨hn, chunks, hl, hlen, hall⟩ := h
  refine ⟨by omega, chunks ++ [c], ?_, by simp [hlen], ?_⟩
  · rw [hlog, hl, List.flatten_append]
    simp
  · intro d hd
    rcases List.mem_append.mp hd with h1 | h2
    · exact hall d h1
    · have hdc : d = c := by simpa using h2
      rw [hdc]
      exact hc

theorem fifoStep_total (frames : Int) (hf : 1 ≤ frames) (res0 : SimulationResult)
    (q0 : List PageID) (page : PageID) (n : Nat) (h : TotalInv res0 n) :
    ∃ st1, fifoStep frames ⟨res0, q0⟩ page = some st1 ∧ TotalInv st1.res (n + 1) := by
  by_cases hmem : page ∈ q0
  · refine ⟨_, fifoStep_of_mem frames hmem, ?_⟩
    exact h.step [LogEntry.snapshot q0] (Or.inl ⟨_, rfl⟩) (by simp [log_state])
      (by simp [log_state]; omega)
  · by_cases hfull : ((q0.length : Nat) : Int) ≥ frames
    · rcases q0 with _ | ⟨r, rest⟩
      · exfalso
        simp at hfull
        omega
      · refine ⟨_, fifoStep_evict frames hmem hfull, ?_⟩
        exact h.step [LogEntry.replacement r page, LogEntry.snapshot (rest ++ [page])]
          (Or.inr ⟨r, page, _, rfl⟩) (by simp [log_state]) (by simp [log_state]; omega)
    · refine ⟨_, fifoStep_grow frames hmem hfull, ?_⟩
      exact h.step [LogEntry.snapshot (q0 ++ [page])] (Or.inl ⟨_, rfl⟩)
        (by simp [log_state]) (by simp [log_state]; omega)

theorem lruStep_total (frames : Int) (hf : 1 ≤ frames) (res0 : SimulationResult)
    (c0 : List PageID) (page : PageID) (n : Nat) (h : TotalInv res0 n) :
    ∃ st1, lruStep frames ⟨res0, c0⟩ page = some st1 ∧ TotalInv st1.res (n + 1) := by
  by_cases hmem : page ∈ c0
  · refine ⟨_, lruStep_of_mem frames hmem, ?_⟩
    exact h.step [LogEntry.snapshot (c0.erase page ++ [page])] (Or.inl ⟨_, rfl⟩)
      (by simp [log_state]) (by simp [log_state]; omega)
  · by_cases hfull : ((c0.length : Nat) : Int) ≥ frames
    · rcases c0 with _ | ⟨r, rest⟩
      · exfalso
        simp at hfull
        omega
      · refine ⟨_, lruStep_evict frames hmem hfull, ?_⟩
        exact h.step [LogEntry.replacement r page, LogEntry.snapshot (rest ++ [page])]
          (Or.inr ⟨r, page, _, rfl⟩) (by simp [log_state]) (by simp [log_state]; omega)
    · refine ⟨_, lruStep_grow frames hmem hfull, ?_⟩
      exact h.step [LogEntry.snapshot (c0 ++ [page])] (Or.inl ⟨_, rfl⟩)
        (by simp [log_state]) (by simp [log_state]; omega)

theorem lfuStep_total (frames : Int) (hf : 1 ≤ frames) (res0 : SimulationResult)
    (c0 freq0 : List (PageID × Nat)) (page : PageID) (n : Nat) (h : TotalInv res0 n) :
    ∃ st1, lfuStep frames ⟨res0, c0, freq0⟩ page = some st1 ∧ TotalInv st1.res (n + 1) := by
  by_cases hmem : page ∈ c0.map Prod.fst
  · refine ⟨_, lfuStep_of_mem frames hmem, ?_⟩
    exact h.step [LogEntry.snapshot (c0.map Prod.fst)] (Or.inl ⟨_, rfl⟩)
      (by simp [log_state]) (by simp [log_state]; omega)
  · by_cases hfull : ((c0.length : Nat) : Int) ≥ frames
    · rcases c0 with _ | ⟨x, xs⟩
      · exfalso
        simp at hfull
        omega
      · refine ⟨_, lfuStep_evict frames hmem hfull, ?_⟩
        exact h.step [LogEntry.replacement (least_used_entry (bumpFreq freq0 page) x xs).1 page,
          LogEntry.snapshot (((x :: xs).eraseP
              (fun e => e.1 == (least_used_entry (bumpFreq freq0 page) x xs).1) ++
            [(page, res0.log.length + 1)]).map Prod.fst)]
          (Or.inr ⟨_, page, _, rfl⟩) (by simp [log_state]) (by simp [log_state]; omega)
    · refine ⟨_, lfuStep_grow frames hmem hfull, ?_⟩
      exact h.step [LogEntry.snapshot ((c0 ++ [(page, res0.log.length)]).map Prod.fst)]
        (Or.inl ⟨_, rfl⟩) (by simp [log_state]) (by simp [log_state]; omega)

theorem optimalStep_total (frames : Int) (hf : 1 ≤ frames) (res0 : SimulationResult)
    (c0 : List PageID) (page : PageID) (future : List PageID) (n : Nat)
    (h : TotalInv res0 n) :
    ∃ st1, optimalStep frames ⟨res0, c0⟩ page future = some st1 ∧ TotalInv st1.res (n + 1) := by
  by_cases hmem : page ∈ c0
  · refine ⟨_, optimalStep_of_mem frames future hmem, ?_⟩
    exact h.step [LogEntry.snapshot c0] (Or.inl ⟨_, rfl⟩) (by simp [log_state])
      (by simp [log_state]; omega)
  · by_cases hfull : ((c0.length : Nat) : Int) ≥ frames
    · rcases c0 with _ | ⟨x, xs⟩
      · exfalso
        simp at hfull
        omega
      · refine ⟨_, optimalStep_evict frames future hmem hfull, ?_⟩
        exact h.step [LogEntry.replacement (farthest_page future x xs) page,
          LogEntry.snapshot ((x :: xs).erase (farthest_page future x xs) ++ [page])]
          (Or.inr ⟨_, page, _, rfl⟩) (by simp [log_state]) (by simp [log_state]; omega)
    · refine ⟨_, optimalStep_grow frames future hmem hfull, ?_⟩
      exact h.step [LogEntry.snapshot (c0 ++ [page])] (Or.inl ⟨_, rfl⟩)
        (by simp [log_state]) (by simp [log_state]; omega)

theorem fifo_run_total (frames : Int) (hf : 1 ≤ frames) (refs : List PageID) :
    ∃ st1, policyRun (fun st page _ => fifoStep frames st page) ⟨reset_metrics, []⟩ refs
        = some st1 ∧ TotalInv st1.res refs.length := by
  obtain ⟨st1, hrun, hP⟩ := policyRun_ghost (fun st page _ => fifoStep frames st page)
    (fun n _ => n + 1) (fun _ => True) (fun st n => TotalInv st.res n)
    (fun st p future n _ h => fifoStep_total frames hf st.res st.queue p n h)
    refs ⟨reset_metrics, []⟩ 0 (fun _ _ => trivial) ⟨rfl, [], rfl, rfl, by simp⟩
  rw [foldl_count_eq_length] at hP
  exact ⟨st1, hrun, by simpa using hP⟩

theorem lru_run_total (frames : Int) (hf : 1 ≤ frames) (refs : List PageID) :
    ∃ st1, policyRun (fun st page _ => lruStep frames st page) ⟨reset_metrics, []⟩ refs
        = some st1 ∧ TotalInv st1.res refs.length := by
  obtain ⟨st1, hrun, hP⟩ := policyRun_ghost (fun st page _ => lruStep frames st page)
    (fun n _ => n + 1) (fun _ => True) (fun st n => TotalInv st.res n)
    (fun st p future n _ h => lruStep_total frames hf st.res st.cache p n h)
    refs ⟨reset_metrics, []⟩ 0 (fun _ _ => trivial) ⟨rfl, [], rfl, rfl, by simp⟩
  rw [foldl_count_eq_length] at hP
  exact ⟨st1, hrun, by simpa using hP⟩

theorem lfu_run_total (frames : Int) (hf : 1 ≤ frames) (refs : List PageID) :
    ∃ st1, policyRun (fun st page _ => lfuStep frames st page) ⟨reset_metrics, [], []⟩ refs
        = some st1 ∧ TotalInv st1.res refs.length := by
  obtain ⟨st1, hrun, hP⟩ := policyRun_ghost (fun st page _ => lfuStep frames st page)
    (fun n _ => n + 1) (fun _ => True) (fun st n => TotalInv st.res n)
    (fun st p future n _ h => lfuStep_total frames hf st.res st.cache st.frequency p n h)
    refs ⟨reset_metrics, [], []⟩ 0 (fun _ _ => trivial) ⟨rfl, [], rfl, rfl, by simp⟩
  rw [foldl_count_eq_length] at hP
  exact ⟨st1, hrun, by simpa using hP⟩

theorem optimal_run_total (frames : Int) (hf : 1 ≤ frames) (refs : List PageID) :
    ∃ st1, policyRun (optimalStep frames) ⟨reset_metrics, []⟩ refs
        = some st1 ∧ TotalInv st1.res refs.length := by
  obtain ⟨st1, hrun, hP⟩ := policyRun_ghost (optimalStep frames)
    (fun n _ => n + 1) (fun _ => True) (fun st n => TotalInv st.res n)
    (fun st p future n _ h => optimalStep_total frames hf st.res st.cache p future n h)
    refs ⟨reset_metrics, []⟩ 0 (fun _ _ => trivial) ⟨rfl, [], rfl, rfl, by simp⟩
  rw [foldl_count_eq_length] at hP
  exact ⟨st1, hrun, by simpa using hP⟩

/-! ### Resident-set size invariant -/

theorem SizeInv.toFinset_eq {f : Int} {resid : List PageID} {seen : Finset PageID}
    (h : SizeInv f resid seen) (hlt : (resid.length : Int) < f) :
    resid.toFinset = seen := by
  obtain ⟨hnd, hsub, hmin⟩ := h
  have hsub2 : resid.toFinset ⊆ seen := by
    intro q hq
    exact hsub q (List.mem_toFinset.mp hq)
  have hcard : resid.toFinset.card = resid.length := List.toFinset_card_of_nodup hnd
  have hlen : resid.length = seen.card := by omega
  exact Finset.eq_of_subset_of_card_le hsub2 (by omega)

theorem sizeInv_same {f : Int} {resid : List PageID} {seen : Finset PageID} {p : PageID}
    (h : SizeInv f resid seen) (hp : p ∈ resid) : SizeInv f resid (insert p seen) := by
  have hps : p ∈ seen := h.2.1 p hp
  rw [Finset.insert_eq_self.mpr hps]
  exact h

theorem sizeInv_reorder {f : Int} {resid : List PageID} {seen : Finset PageID} {p : PageID}
    (h : SizeInv f resid seen) (hp : p ∈ resid) :
    SizeInv f (resid.erase p ++ [p]) (insert p seen) := by
  obtain ⟨hnd, hsub, hmin⟩ := h
  have hps : p ∈ seen := hsub p hp
  rw [Finset.insert_eq_self.mpr hps]
  refine ⟨?_, ?_, ?_⟩
  · rw [List.nodup_append]
    refine ⟨hnd.erase p, List.nodup_singleton p, ?_⟩
    intro q hq hq2
    have hqp : q = p := by simpa using hq2
    rw [hqp] at hq
    exact ((List.Nodup.mem_erase_iff hnd).mp hq).1 rfl
  · intro q hq
    rcases List.mem_append.mp hq with h1 | h1
    · exact hsub q (List.mem_of_mem_erase h1)
    · have hqp : q = p := by simpa using h1
      rw [hqp]
      exact hps
  · have hlen := List.length_erase_of_mem hp
    have hpos : 1 ≤ resid.length := List.length_pos.mpr (List.ne_nil_of_mem hp)
    simp only [List.length_append, List.length_singleton, hlen]
    omega

theorem sizeInv_grow {f : Int} {resid : List PageID} {seen : Finset PageID} {p : PageID}
    (h : SizeInv f resid seen) (hp : p ∉ resid) (hlt : (resid.length : Int) < f) :
    SizeInv f (resid ++ [p]) (insert p seen) := by
  have htf := h.toFinset_eq hlt
  obtain ⟨hnd, hsub, hmin⟩ := h
  have hpseen : p ∉ seen := by
    rw [← htf]
    exact fun hmem => hp (List.mem_toFinset.mp hmem)
  refine ⟨?_, ?_, ?_⟩
  · rw [List.nodup_append]
    refine ⟨hnd, List.nodup_singleton p, ?_⟩
    intro q hq hq2
    have hqp : q = p := by simpa using hq2
    rw [hqp] at hq
    exact hp hq
  · intro q hq
    rcases List.mem_append.mp hq with h1 | h1
    · exact Finset.mem_insert_of_mem (hsub q h1)
    · have hqp : q = p := by simpa using h1
      rw [hqp]
      exact Finset.mem_insert_self p seen
  · rw [Finset.card_insert_of_not_mem hpseen]
    simp only [List.length_append, List.length_singleton]
    omega

theorem sizeInv_evict {f : Int} {resid : List PageID} {seen : Finset PageID} {p e : PageID}
    (h : SizeInv f resid seen) (hp : p ∉ resid) (he : e ∈ resid)
    (hge : (resid.length : Int) ≥ f) (_hf : 1 ≤ f) :
    SizeInv f (resid.erase e ++ [p]) (insert p seen) := by
  obtain ⟨hnd, hsub, hmin⟩ := h
  refine ⟨?_, ?_, ?_⟩
  · rw [List.nodup_append]
    refine ⟨hnd.erase e, List.nodup_singleton p, ?_⟩
    intro q hq hq2
    have hqp : q = p := by simpa using hq2
    rw [hqp] at hq
    exact hp (List.mem_of_mem_erase hq)
  · intro q hq
    rcases List.mem_append.mp hq with h1 | h1
    · exact Finset.mem_insert_of_mem (hsub q (List.mem_of_mem_erase h1))
    · have hqp : q = p := by simpa using h1
      rw [hqp]
      exact Finset.mem_insert_self p seen
  · have hlen := List.length_erase_of_mem he
    have hpos : 1 ≤ resid.length := List.length_pos.mpr (List.ne_nil_of_mem he)
    have hcard1 : seen.card ≤ (insert p seen).card :=
      Finset.card_le_card (Finset.subset_insert p seen)
    have hcard2 : (insert p seen).card ≤ seen.card + 1 := Finset.card_insert_le p seen
    simp only [List.length_append, List.length_singleton, hlen]
    omega

theorem fifoStep_size (frames : Int) (hf : 1 ≤ frames) (res0 : SimulationResult)
    (q0 : List PageID) (page : PageID) (seen : Finset PageID)
    (h : SizeInv frames q0 seen) :
    ∃ st1, fifoStep frames ⟨res0, q0⟩ page = some st1 ∧
      SizeInv frames st1.queue (insert page seen) := by
  by_cases hmem : page ∈ q0
  · exact ⟨_, fifoStep_of_mem frames hmem, sizeInv_same h hmem⟩
  · by_cases hfull : ((q0.length : Nat) : Int) ≥ frames
    · rcases q0 with _ | ⟨r, rest⟩
      · exfalso
        simp at hfull
        omega
      · refine ⟨_, fifoStep_evict frames hmem hfull, ?_⟩
        have h2 := sizeInv_evict h hmem (List.mem_cons_self r rest) hfull hf
        rwa [List.erase_cons_head] at h2
    · have hlt : (q0.length : Int) < frames := by omega
      exact ⟨_, fifoStep_grow frames hmem hfull, sizeInv_grow h hmem hlt⟩

theorem lruStep_size (frames : Int) (hf : 1 ≤ frames) (res0 : SimulationResult)
    (c0 : List PageID) (page : PageID) (seen : Finset PageID)
    (h : SizeInv frames c0 seen) :
    ∃ st1, lruStep frames ⟨res0, c0⟩ page = some st1 ∧
      SizeInv frames st1.cache (insert page seen) := by
  by_cases hmem : page ∈ c0
  · exact ⟨_, lruStep_of_mem frames hmem, sizeInv_reorder h hmem⟩
  · by_cases hfull : ((c0.length : Nat) : Int) ≥ frames
    · rcases c0 with _ | ⟨r, rest⟩
      · exfalso
        simp at hfull
        omega
      · refine ⟨_, lruStep_evict frames hmem hfull, ?_⟩
        have h2 := sizeInv_evict h hmem (List.mem_cons_self r rest) hfull hf
        rwa [List.erase_cons_head] at h2
    · have hlt : (c0.length : Int) < frames := by omega
      exact ⟨_, lruStep_grow frames hmem hfull, sizeInv_grow h hmem hlt⟩

theorem lfuStep_size (frames : Int) (hf : 1 ≤ frames) (res0 : SimulationResult)
    (c0 freq0 : List (PageID × Nat)) (page : PageID) (seen : Finset PageID)
    (h : SizeInv frames (c0.map Prod.fst) seen) :
    ∃ st1, lfuStep frames ⟨res0, c0, freq0⟩ page = some st1 ∧
      SizeInv frames (st1.cache.map Prod.fst) (insert page seen) := by
  by_cases hmem : page ∈ c0.map Prod.fst
  · exact ⟨_, lfuStep_of_mem frames hmem, sizeInv_same h hmem⟩
  · by_cases hfull : ((c0.length : Nat) : Int) ≥ frames
    · rcases c0 with _ | ⟨x, xs⟩
      · exfalso
        simp at hfull
        omega
      · refine ⟨_, lfuStep_evict frames hmem hfull, ?_⟩
        have hlm : (least_used_entry (bumpFreq freq0 page) x xs).1 ∈ (x :: xs).map Prod.fst :=
          List.mem_map_of_mem Prod.fst (least_used_entry_mem (bumpFreq freq0 page) x xs)
        have hfull2 : (((x :: xs).map Prod.fst).length : Int) ≥ frames := by
          rw [List.length_map]
          exact hfull
        have h2 := sizeInv_evict h hmem hlm hfull2 hf
        simp only [List.map_append, map_fst_eraseP]
        simpa using h2
    · have hfull2 : ¬ (((c0.map Prod.fst).length : Int) ≥ frames) := by
        rw [List.length_map]
        exact hfull
      refine ⟨_, lfuStep_grow frames hmem hfull, ?_⟩
      have hlt : ((c0.map Prod.fst).length : Int) < frames := by omega
      have h2 := sizeInv_grow h hmem hlt
      simpa using h2

theorem optimalStep_size (frames : Int) (hf : 1 ≤ frames) (res0 : SimulationResult)
    (c0 : List PageID) (page : PageID) (future : List PageID) (seen : Finset PageID)
    (h : SizeInv frames c0 seen) :
    ∃ st1, optimalStep frames ⟨res0, c0⟩ page future = some st1 ∧
      SizeInv frames st1.cache (insert page seen) := by
  by_cases hmem : page ∈ c0
  · exact ⟨_, optimalStep_of_mem frames future hmem, sizeInv_same h hmem⟩
  · by_cases hfull : ((c0.length : Nat) : Int) ≥ frames
    · rcases c0 with _ | ⟨x, xs⟩
      · exfalso
        simp at hfull
        omega
      · refine ⟨_, optimalStep_evict frames future hmem hfull, ?_⟩
        exact sizeInv_evict h hmem (farthest_page_mem future x xs) hfull hf
    · have hlt : (c0.length : Int) < frames := by omega
      exact ⟨_, optimalStep_grow frames future hmem hfull, sizeInv_grow h hmem hlt⟩

theorem fifo_trace_size (frames : Int) (hf : 1 ≤ frames) (refs : List PageID) :
    (fifoTrace frames refs).length = refs.length + 1 ∧
    ∀ i ≤ refs.length, ∃ st, (fifoTrace frames refs).get? i = some st ∧
      SizeInv frames st.queue (refs.take i).toFinset := by
  have h := policyStates_ghost (fun st page _ => fifoStep frames st page)
    (fun s p => insert p s) (fun _ => True) (fun st s => SizeInv frames st.queue s)
    (fun st p future s _ hP => fifoStep_size frames hf st.res st.queue p s hP)
    refs ⟨reset_metrics, []⟩ ∅ (fun _ _ => trivial)
    ⟨List.nodup_nil, by simp, by simp; omega⟩
  refine ⟨h.1, ?_⟩
  intro i hi
  obtain ⟨st, hget, hP⟩ := h.2 i hi
  rw [foldl_insert_eq_union, Finset.empty_union] at hP
  exact ⟨st, hget, hP⟩

theorem lru_trace_size (frames : Int) (hf : 1 ≤ frames) (refs : List PageID) :
    (lruTrace frames refs).length = refs.length + 1 ∧
    ∀ i ≤ refs.length, ∃ st, (lruTrace frames refs).get? i = some st ∧
      SizeInv frames st.cache (refs.take i).toFinset := by
  have h := policyStates_ghost (fun st page _ => lruStep frames st page)
    (fun s p => insert p s) (fun _ => True) (fun st s => SizeInv frames st.cache s)
    (fun st p future s _ hP => lruStep_size frames hf st.res st.cache p s hP)
    refs ⟨reset_metrics, []⟩ ∅ (fun _ _ => trivial)
    ⟨List.nodup_nil, by simp, by simp; omega⟩
  refine ⟨h.1, ?_⟩
  intro i hi
  obtain ⟨st, hget, hP⟩ := h.2 i hi
  rw [foldl_insert_eq_union, Finset.empty_union] at hP
  exact ⟨st, hget, hP⟩

theorem lfu_trace_size (frames : Int) (hf : 1 ≤ frames) (refs : List PageID) :
    (lfuTrace frames refs).length = refs.length + 1 ∧
    ∀ i ≤ refs.length, ∃ st, (lfuTrace frames refs).get? i = some st ∧
      SizeInv frames (st.cache.map Prod.fst) (refs.take i).toFinset := by
  have h := policyStates_ghost (fun st page _ => lfuStep frames st page)
    (fun s p => insert p s) (fun _ => True)
    (fun st s => SizeInv frames (st.cache.map Prod.fst) s)
    (fun st p future s _ hP => lfuStep_size frames hf st.res st.cache st.frequency p s hP)
    refs ⟨reset_metrics, [], []⟩ ∅ (fun _ _ => trivial)
    ⟨List.nodup_nil, by simp, by simp; omega⟩
  refine ⟨h.1, ?_⟩
  intro i hi
  obtain ⟨st, hget, hP⟩ := h.2 i hi
  rw [foldl_insert_eq_union, Finset.empty_union] at hP
  exact ⟨st, hget, hP⟩

theorem optimal_trace_size (frames : Int) (hf : 1 ≤ frames) (refs : List PageID) :
    (optimalTrace frames refs).length = refs.length + 1 ∧
    ∀ i ≤ refs.length, ∃ st, (optimalTrace frames refs).get? i = some st ∧
      SizeInv frames st.cache (refs.take i).toFinset := by
  have h := policyStates_ghost (optimalStep frames)
    (fun s p => insert p s) (fun _ => True) (fun st s => SizeInv frames st.cache s)
    (fun st p future s _ hP => optimalStep_size frames hf st.res st.cache p future s hP)
    refs ⟨reset_metrics, []⟩ ∅ (fun _ _ => trivial)
    ⟨List.nodup_nil, by simp, by simp; omega⟩
  refine ⟨h.1, ?_⟩
  intro i hi
  obtain ⟨st, hget, hP⟩ := h.2 i hi
  rw [foldl_insert_eq_union, Finset.empty_union] at hP
  exact ⟨st, hget, hP⟩

/-! ### No-eviction invariant (enough frames for every distinct page) -/

theorem toFinset_erase_append_self {l : List PageID} {p : PageID} (hp : p ∈ l) :
    (l.erase p ++ [p]).toFinset = l.toFinset := by
  ext q
  simp only [List.mem_toFinset, List.mem_append, List.mem_singleton]
  constructor
  · rintro (h1 | rfl)
    · exact List.mem_of_mem_erase h1
    · exact hp
  · intro h1
    by_cases hqp : q = p
    · exact Or.inr hqp
    · exact Or.inl ((List.mem_erase_of_ne hqp).mpr h1)

theorem nodup_erase_append_self {l : List PageID} {p : PageID} (hnd : l.Nodup) :
    (l.erase p ++ [p]).Nodup := by
  rw [List.nodup_append]
  refine ⟨hnd.erase p, List.nodup_singleton p, ?_⟩
  intro q hq hq2
  have hqp : q = p := by simpa using hq2
  rw [hqp] at hq
  exact ((List.Nodup.mem_erase_iff hnd).mp hq).1 rfl

theorem snapshots_append {res res1 : SimulationResult}
    (h : ∀ e ∈ res.log, ∃ s, e = LogEntry.snapshot s) (snap : List PageID)
    (hlog : res1.log = res.log ++ [LogEntry.snapshot snap]) :
    ∀ e ∈ res1.log, ∃ s, e = LogEntry.snapshot s := by
  intro e he
  rw [hlog] at he
  rcases List.mem_append.mp he with h1 | h1
  · exact h e h1
  · exact ⟨snap, by simpa using h1⟩

theorem fifoStep_noevict (frames : Int) (U : Finset PageID) (hU : (U.card : Int) ≤ frames)
    (res0 : SimulationResult) (q0 : List PageID) (page : PageID) (seen : Finset PageID)
    (hpU : page ∈ U) (h : NoEvictInv U seen q0 res0) :
    ∃ st1, fifoStep frames ⟨res0, q0⟩ page = some st1 ∧
      NoEvictInv U (insert page seen) st1.queue st1.res := by
  obtain ⟨hnd, htf, hsU, hfaults, hlog⟩ := h
  by_cases hmem : page ∈ q0
  · refine ⟨_, fifoStep_of_mem frames hmem, ?_⟩
    have hps : page ∈ seen := by
      rw [← htf]
      exact List.mem_toFinset.mpr hmem
    rw [Finset.insert_eq_self.mpr hps]
    exact ⟨hnd, htf, hsU, by simpa [log_state] using hfaults,
      snapshots_append hlog q0 (by simp [log_state])⟩
  · have hpns : page ∉ seen := by
      rw [← htf]
      exact fun hmem2 => hmem (List.mem_toFinset.mp hmem2)
    have hlen : q0.length = seen.card := by
      rw [← htf]
      exact (List.toFinset_card_of_nodup hnd).symm
    have hins : insert page seen ⊆ U := Finset.insert_subset hpU hsU
    have hcard : ((insert page seen).card : Int) ≤ frames :=
      le_trans (by exact_mod_cast Finset.card_le_card hins) hU
    have hcard2 : (insert page seen).card = seen.card + 1 :=
      Finset.card_insert_of_not_mem hpns
    have hnotfull : ¬ ((q0.length : Int) ≥ frames) := by omega
    refine ⟨_, fifoStep_grow frames hmem hnotfull, ?_⟩
    refine ⟨?_, ?_, hins, ?_, ?_⟩
    · rw [List.nodup_append]
      refine ⟨hnd, List.nodup_singleton page, ?_⟩
      intro q hq hq2
      have hqp : q = page := by simpa using hq2
      rw [hqp] at hq
      exact hmem hq
    · rw [List.toFinset_append, htf]
      simp [Finset.insert_eq, Finset.union_comm]
    · simp only [log_state]
      omega
    · exact snapshots_append hlog (q0 ++ [page]) (by simp [log_state])

theorem lruStep_noevict (frames : Int) (U : Finset PageID) (hU : (U.card : Int) ≤ frames)
    (res0 : SimulationResult) (c0 : List PageID) (page : PageID) (seen : Finset PageID)
    (hpU : page ∈ U) (h : NoEvictInv U seen c0 res0) :
    ∃ st1, lruStep frames ⟨res0, c0⟩ page = some st1 ∧
      NoEvictInv U (insert page seen) st1.cache st1.res := by
  obtain ⟨hnd, htf, hsU, hfaults, hlog⟩ := h
  by_cases hmem : page ∈ c0
  · refine ⟨_, lruStep_of_mem frames hmem, ?_⟩
    have hps : page ∈ seen := by
      rw [← htf]
      exact List.mem_toFinset.mpr hmem
    rw [Finset.insert_eq_self.mpr hps]
    refine ⟨nodup_erase_append_self hnd, ?_, hsU, by simpa [log_state] using hfaults,
      snapshots_append hlog (c0.erase page ++ [page]) (by simp [log_state])⟩
    rw [toFinset_erase_append_self hmem]
    exact htf
  · have hpns : page ∉ seen := by
      rw [← htf]
      exact fun hmem2 => hmem (List.mem_toFinset.mp hmem2)
    have hlen : c0.length = seen.card := by
      rw [← htf]
      exact (List.toFinset_card_of_nodup hnd).symm
    have hins : insert page seen ⊆ U := Finset.insert_subset hpU hsU
    have hcard : ((insert page seen).card : Int) ≤ frames :=
      le_trans (by exact_mod_cast Finset.card_le_card hins) hU
    have hcard2 : (insert page seen).card = seen.card + 1 :=
      Finset.card_insert_of_not_mem hpns
    have hnotfull : ¬ ((c0.length : Int) ≥ frames) := by omega
    refine ⟨_, lruStep_grow frames hmem hnotfull, ?_⟩
    refine ⟨?_, ?_, hins, ?_, ?_⟩
    · rw [List.nodup_append]
      refine ⟨hnd, List.nodup_singleton page, ?_⟩
      intro q hq hq2
      have hqp : q = page := by simpa using hq2
      rw [hqp] at hq
      exact hmem hq
    · rw [List.toFinset_append, htf]
      simp [Finset.insert_eq, Finset.union_comm]
    · simp only [log_state]
      omega
    · exact snapshots_append hlog (c0 ++ [page]) (by simp [log_state])

theorem lfuStep_noevict (frames : Int) (U : Finset PageID) (hU : (U.card : Int) ≤ frames)
    (res0 : SimulationResult) (c0 freq0 : List (PageID × Nat)) (page : PageID)
    (seen : Finset PageID) (hpU : page ∈ U)
    (h : NoEvictInv U seen (c0.map Prod.fst) res0) :
    ∃ st1, lfuStep frames ⟨res0, c0, freq0⟩ page = some st1 ∧
      NoEvictInv U (insert page seen) (st1.cache.map Prod.fst) st1.res := by
  obtain ⟨hnd, htf, hsU, hfaults, hlog⟩ := h
  by_cases hmem : page ∈ c0.map Prod.fst
  · refine ⟨_, lfuStep_of_mem frames hmem, ?_⟩
    have hps : page ∈ seen := by
      rw [← htf]
      exact List.mem_toFinset.mpr hmem
    rw [Finset.insert_eq_self.mpr hps]
    exact ⟨hnd, htf, hsU, by simpa [log_state] using hfaults,
      snapshots_append hlog (c0.map Prod.fst) (by simp [log_state])⟩
  · have hpns : page ∉ seen := by
      rw [← htf]
      exact fun hmem2 => hmem (List.mem_toFinset.mp hmem2)
    have hlen : (c0.map Prod.fst).length = seen.card := by
      rw [← htf]
      exact (List.toFinset_card_of_nodup hnd).symm
    rw [List.length_map] at hlen
    have hins : insert page seen ⊆ U := Finset.insert_subset hpU hsU
    have hcard : ((insert page seen).card : Int) ≤ frames :=
      le_trans (by exact_mod_cast Finset.card_le_card hins) hU
    have hcard2 : (insert page seen).card = seen.card + 1 :=
      Finset.card_insert_of_not_mem hpns
    have hnotfull : ¬ ((c0.length : Int) ≥ frames) := by omega
    refine ⟨_, lfuStep_grow frames hmem hnotfull, ?_⟩
    refine ⟨?_, ?_, hins, ?_, ?_⟩
    · rw [List.map_append, List.nodup_append]
      refine ⟨hnd, by simp, ?_⟩
      intro q hq hq2
      have hqp : q = page := by simpa using hq2
      rw [hqp] at hq
      exact hmem hq
    · rw [List.map_append, List.toFinset_append, htf]
      simp [Finset.insert_eq, Finset.union_comm]
    · simp only [log_state]
      omega
    · exact snapshots_append hlog ((c0 ++ [(page, res0.log.length)]).map Prod.fst)
        (by simp [log_state])

theorem optimalStep_noevict (frames : Int) (U : Finset PageID)
    (hU : (U.card : Int) ≤ frames) (res0 : SimulationResult) (c0 : List PageID)
    (page : PageID) (future : List PageID) (seen : Finset PageID) (hpU : page ∈ U)
    (h : NoEvictInv U seen c0 res0) :
    ∃ st1, optimalStep frames ⟨res0, c0⟩ page future = some st1 ∧
      NoEvictInv U (insert page seen) st1.cache st1.res := by
  obtain ⟨hnd, htf, hsU, hfaults, hlog⟩ := h
  by_cases hmem : page ∈ c0
  · refine ⟨_, optimalStep_of_mem frames future hmem, ?_⟩
    have hps : page ∈ seen := by
      rw [← htf]
      exact List.mem_toFinset.mpr hmem
    rw [Finset.insert_eq_self.mpr hps]
    exact ⟨hnd, htf, hsU, by simpa [log_state] using hfaults,
      snapshots_append hlog c0 (by simp [log_state])⟩
  · have hpns : page ∉ seen := by
      rw [← htf]
      exact fun hmem2 => hmem (List.mem_toFinset.mp hmem2)
    have hlen : c0.length = seen.card := by
      rw [← htf]
      exact (List.toFinset_card_of_nodup hnd).symm
    have hins : insert page seen ⊆ U := Finset.insert_subset hpU hsU
    have hcard : ((insert page seen).card : Int) ≤ frames :=
      le_trans (by exact_mod_cast Finset.card_le_card hins) hU
    have hcard2 : (insert page seen).card = seen.card + 1 :=
      Finset.card_insert_of_not_mem hpns
    have hnotfull : ¬ ((c0.length : Int) ≥ frames) := by omega
    refine ⟨_, optimalStep_grow frames future hmem hnotfull, ?_⟩
    refine ⟨?_, ?_, hins, ?_, ?_⟩
    · rw [List.nodup_append]
      refine ⟨hnd, List.nodup_singleton page, ?_⟩
      intro q hq hq2
      have hqp : q = page := by simpa using hq2
      rw [hqp] at hq
      exact hmem hq
    · rw [List.toFinset_append, htf]
      simp [Finset.insert_eq, Finset.union_comm]
    · simp only [log_state]
      omega
    · exact snapshots_append hlog (c0 ++ [page]) (by simp [log_state])

theorem fifo_run_noevict (frames : Int) (refs : List PageID)
    (hU : ((refs.toFinset.card : Nat) : Int) ≤ frames) :
    ∃ st1, policyRun (fun st page _ => fifoStep frames st page) ⟨reset_metrics, []⟩ refs
        = some st1 ∧ NoEvictInv refs.toFinset refs.toFinset st1.queue st1.res := by
  obtain ⟨st1, hrun, hP⟩ := policyRun_ghost (fun st page _ => fifoStep frames st page)
    (fun s p => insert p s) (fun p => p ∈ refs.toFinset)
    (fun st s => NoEvictInv refs.toFinset s st.queue st.res)
    (fun st p future s hQ hP =>
      fifoStep_noevict frames refs.toFinset hU st.res st.queue p s hQ hP)
    refs ⟨reset_metrics, []⟩ ∅ (fun p hp => List.mem_toFinset.mpr hp)
    ⟨List.nodup_nil, by simp, by simp, by simp [reset_metrics], by simp [reset_metrics]⟩
  rw [foldl_insert_eq_union, Finset.empty_union] at hP
  exact ⟨st1, hrun, hP⟩

theorem lru_run_noevict (frames : Int) (refs : List PageID)
    (hU : ((refs.toFinset.card : Nat) : Int) ≤ frames) :
    ∃ st1, policyRun (fun st page _ => lruStep frames st page) ⟨reset_metrics, []⟩ refs
        = some st1 ∧ NoEvictInv refs.toFinset refs.toFinset st1.cache st1.res := by
  obtain ⟨st1, hrun, hP⟩ := policyRun_ghost (fun st page _ => lruStep frames st page)
    (fun s p => insert p s) (fun p => p ∈ refs.toFinset)
    (fun st s => NoEvictInv refs.toFinset s st.cache st.res)
    (fun st p future s hQ hP =>
      lruStep_noevict frames refs.toFinset hU st.res st.cache p s hQ hP)
    refs ⟨reset_metrics, []⟩ ∅ (fun p hp => List.mem_toFinset.mpr hp)
    ⟨List.nodup_nil, by simp, by simp, by simp [reset_metrics], by simp [reset_metrics]⟩
  rw [foldl_insert_eq_union, Finset.empty_union] at hP
  exact ⟨st1, hrun, hP⟩

theorem lfu_run_noevict (frames : Int) (refs : List PageID)
    (hU : ((refs.toFinset.card : Nat) : Int) ≤ frames) :
    ∃ st1, policyRun (fun st page _ => lfuStep frames st page) ⟨reset_metrics, [], []⟩ refs
        = some st1 ∧
        NoEvictInv refs.toFinset refs.toFinset (st1.cache.map Prod.fst) st1.res := by
  obtain ⟨st1, hrun, hP⟩ := policyRun_ghost (fun st page _ => lfuStep frames st page)
    (fun s p => insert p s) (fun p => p ∈ refs.toFinset)
    (fun st s => NoEvictInv refs.toFinset s (st.cache.map Prod.fst) st.res)
    (fun st p future s hQ hP =>
      lfuStep_noevict frames refs.toFinset hU st.res st.cache st.frequency p s hQ hP)
    refs ⟨reset_metrics, [], []⟩ ∅ (fun p hp => List.mem_toFinset.mpr hp)
    ⟨List.nodup_nil, by simp, by simp, by simp [reset_metrics], by simp [reset_metrics]⟩
  rw [foldl_insert_eq_union, Finset.empty_union] at hP
  exact ⟨st1, hrun, hP⟩

theorem optimal_run_noevict (frames : Int) (refs : List PageID)
    (hU : ((refs.toFinset.card : Nat) : Int) ≤ frames) :
    ∃ st1, policyRun (optimalStep frames) ⟨reset_metrics, []⟩ refs = some st1 ∧
      NoEvictInv refs.toFinset refs.toFinset st1.cache st1.res := by
  obtain ⟨st1, hrun, hP⟩ := policyRun_ghost (optimalStep frames)
    (fun s p => insert p s) (fun p => p ∈ refs.toFinset)
    (fun st s => NoEvictInv refs.toFinset s st.cache st.res)
    (fun st p future s hQ hP =>
      optimalStep_noevict frames refs.toFinset hU st.res st.cache p future s hQ hP)
    refs ⟨reset_metrics, []⟩ ∅ (fun p hp => List.mem_toFinset.mpr hp)
    ⟨List.nodup_nil, by simp, by simp, by simp [reset_metrics], by simp [reset_metrics]⟩
  rw [foldl_insert_eq_union, Finset.empty_union] at hP
  exact ⟨st1, hrun, hP⟩

/-! ### Degenerate runs with a single frame -/

theorem fifoStep_one (res0 : SimulationResult) (q0 : List PageID) (page : PageID)
    (r : Option PageID) (n : Nat) (hs : singletonShape q0 r)
    (hn : res0.page_faults = n) :
    ∃ st1, fifoStep 1 ⟨res0, q0⟩ page = some st1 ∧
      singletonShape st1.queue (some page) ∧
      st1.res.page_faults = n + refCost r page := by
  rcases r with _ | q
  · have hq : q0 = [] := hs
    subst hq
    have hmem : page ∉ ([] : List PageID) := by simp
    have hnf : ¬ ((([] : List PageID).length : Int) ≥ 1) := by simp
    refine ⟨_, fifoStep_grow 1 hmem hnf, ?_, ?_⟩
    · rfl
    · simp [log_state, refCost, hn]
  · have hq : q0 = [q] := hs
    subst hq
    by_cases hpq : page = q
    · subst hpq
      have hmem : page ∈ [page] := by simp
      refine ⟨_, fifoStep_of_mem 1 hmem, ?_, ?_⟩
      · rfl
      · simp [log_state, refCost, hn]
    · have hmem : page ∉ [q] := by simp [hpq]
      have hfull : ((([q].length : Nat) : Int) ≥ 1) := by simp
      refine ⟨_, fifoStep_evict 1 hmem hfull, ?_, ?_⟩
      · rfl
      · simp [log_state, refCost, hpq, hn]

theorem lruStep_one (res0 : SimulationResult) (c0 : List PageID) (page : PageID)
    (r : Option PageID) (n : Nat) (hs : singletonShape c0 r)
    (hn : res0.page_faults = n) :
    ∃ st1, lruStep 1 ⟨res0, c0⟩ page = some st1 ∧
      singletonShape st1.cache (some page) ∧
      st1.res.page_faults = n + refCost r page := by
  rcases r with _ | q
  · have hq : c0 = [] := hs
    subst hq
    have hmem : page ∉ ([] : List PageID) := by simp
    have hnf : ¬ ((([] : List PageID).length : Int) ≥ 1) := by simp
    refine ⟨_, lruStep_grow 1 hmem hnf, ?_, ?_⟩
    · rfl
    · simp [log_state, refCost, hn]
  · have hq : c0 = [q] := hs
    subst hq
    by_cases hpq : page = q
    · subst hpq
      have hmem : page ∈ [page] := by simp
      refine ⟨_, lruStep_of_mem 1 hmem, ?_, ?_⟩
      · show [page].erase page ++ [page] = [page]
        simp
      · simp [log_state, refCost, hn]
    · have hmem : page ∉ [q] := by simp [hpq]
      have hfull : ((([q].length : Nat) : Int) ≥ 1) := by simp
      refine ⟨_, lruStep_evict 1 hmem hfull, ?_, ?_⟩
      · rfl
      · simp [log_state, refCost, hpq, hn]

theorem lfuStep_one (res0 : SimulationResult) (c0 freq0 : List (PageID × Nat))
    (page : PageID) (r : Option PageID) (n : Nat) (hs : lfuSingletonShape c0 r)
    (hn : res0.page_faults = n) :
    ∃ st1, lfuStep 1 ⟨res0, c0, freq0⟩ page = some st1 ∧
      lfuSingletonShape st1.cache (some page) ∧
      st1.res.page_faults = n + refCost r page := by
  rcases r with _ | q
  · have hq : c0 = [] := hs
    subst hq
    have hmem : page ∉ ([] : List (PageID × Nat)).map Prod.fst := by simp
    have hnf : ¬ ((([] : List (PageID × Nat)).length : Int) ≥ 1) := by simp
    refine ⟨_, lfuStep_grow 1 hmem hnf, ?_, ?_⟩
    · exact ⟨res0.log.length, rfl⟩
    · simp [log_state, refCost, hn]
  · obtain ⟨t, hq⟩ := hs
    subst hq
    by_cases hpq : page = q
    · subst hpq
      have hmem : page ∈ [(page, t)].map Prod.fst := by simp
      refine ⟨_, lfuStep_of_mem 1 hmem, ?_, ?_⟩
      · exact ⟨t, rfl⟩
      · simp [log_state, refCost, hn]
    · have hmem : page ∉ [(q, t)].map Prod.fst := by simp [hpq]
      have hfull : ((([(q, t)].length : Nat) : Int) ≥ 1) := by simp
      refine ⟨_, lfuStep_evict 1 hmem hfull, ?_, ?_⟩
      · refine ⟨res0.log.length + 1, ?_⟩
        show List.eraseP _ [(q, t)] ++ [(page, res0.log.length + 1)] = _
        simp [List.eraseP_cons, least_used_entry]
      · simp [log_state, refCost, hpq, hn]

theorem optimalStep_one (res0 : SimulationResult) (c0 : List PageID) (page : PageID)
    (future : List PageID) (r : Option PageID) (n : Nat) (hs : singletonShape c0 r)
    (hn : res0.page_faults = n) :
    ∃ st1, optimalStep 1 ⟨res0, c0⟩ page future = some st1 ∧
      singletonShape st1.cache (some page) ∧
      st1.res.page_faults = n + refCost r page := by
  rcases r with _ | q
  · have hq : c0 = [] := hs
    subst hq
    have hmem : page ∉ ([] : List PageID) := by simp
    have hnf : ¬ ((([] : List PageID).length : Int) ≥ 1) := by simp
    refine ⟨_, optimalStep_grow 1 future hmem hnf, ?_, ?_⟩
    · rfl
    · simp [log_state, refCost, hn]
  · have hq : c0 = [q] := hs
    subst hq
    by_cases hpq : page = q
    · subst hpq
      have hmem : page ∈ [page] := by simp
      refine ⟨_, optimalStep_of_mem 1 future hmem, ?_, ?_⟩
      · rfl
      · simp [log_state, refCost, hn]
    · have hmem : page ∉ [q] := by simp [hpq]
      have hfull : ((([q].length : Nat) : Int) ≥ 1) := by simp
      refine ⟨_, optimalStep_evict 1 future hmem hfull, ?_, ?_⟩
      · show ([q].erase (farthest_page future q []) ++ [page]) = [page]
        show ([q].erase q ++ [page]) = [page]
        simp
      · simp [log_state, refCost, hpq, hn]

theorem fifo_run_one (refs : List PageID) :
    ∃ st1, policyRun (fun st page _ => fifoStep 1 st page) ⟨reset_metrics, []⟩ refs
        = some st1 ∧ st1.res.page_faults = faults1 none refs := by
  obtain ⟨st1, hrun, hP⟩ := policyRun_ghost (fun st page _ => fifoStep 1 st page)
    (fun g p => (some p, g.2 + refCost g.1 p)) (fun _ => True)
    (fun st g => singletonShape st.queue g.1 ∧ st.res.page_faults = g.2)
    (fun st p future g _ hP => fifoStep_one st.res st.queue p g.1 g.2 hP.1 hP.2)
    refs ⟨reset_metrics, []⟩ (none, 0) (fun _ _ => trivial) ⟨rfl, rfl⟩
  have h2 := hP.2
  rw [foldl_refCost_eq_faults1] at h2
  exact ⟨st1, hrun, by simpa using h2⟩

theorem lru_run_one (refs : List PageID) :
    ∃ st1, policyRun (fun st page _ => lruStep 1 st page) ⟨reset_metrics, []⟩ refs
        = some st1 ∧ st1.res.page_faults = faults1 none refs := by
  obtain ⟨st1, hrun, hP⟩ := policyRun_ghost (fun st page _ => lruStep 1 st page)
    (fun g p => (some p, g.2 + refCost g.1 p)) (fun _ => True)
    (fun st g => singletonShape st.cache g.1 ∧ st.res.page_faults = g.2)
    (fun st p future g _ hP => lruStep_one st.res st.cache p g.1 g.2 hP.1 hP.2)
    refs ⟨reset_metrics, []⟩ (none, 0) (fun _ _ => trivial) ⟨rfl, rfl⟩
  have h2 := hP.2
  rw [foldl_refCost_eq_faults1] at h2
  exact ⟨st1, hrun, by simpa using h2⟩

theorem lfu_run_one (refs : List PageID) :
    ∃ st1, policyRun (fun st page _ => lfuStep 1 st page) ⟨reset_metrics, [], []⟩ refs
        = some st1 ∧ st1.res.page_faults = faults1 none refs := by
  obtain ⟨st1, hrun, hP⟩ := policyRun_ghost (fun st page _ => lfuStep 1 st page)
    (fun g p => (some p, g.2 + refCost g.1 p)) (fun _ => True)
    (fun st g => lfuSingletonShape st.cache g.1 ∧ st.res.page_faults = g.2)
    (fun st p future g _ hP =>
      lfuStep_one st.res st.cache st.frequency p g.1 g.2 hP.1 hP.2)
    refs ⟨reset_metrics, [], []⟩ (none, 0) (fun _ _ => trivial) ⟨rfl, rfl⟩
  have h2 := hP.2
  rw [foldl_refCost_eq_faults1] at h2
  exact ⟨st1, hrun, by simpa using h2⟩

theorem optimal_run_one (refs : List PageID) :
    ∃ st1, policyRun (optimalStep 1) ⟨reset_metrics, []⟩ refs
        = some st1 ∧ st1.res.page_faults = faults1 none refs := by
  obtain ⟨st1, hrun, hP⟩ := policyRun_ghost (optimalStep 1)
    (fun g p => (some p, g.2 + refCost g.1 p)) (fun _ => True)
    (fun st g => singletonShape st.cache g.1 ∧ st.res.page_faults = g.2)
    (fun st p future g _ hP => optimalStep_one st.res st.cache p future g.1 g.2 hP.1 hP.2)
    refs ⟨reset_metrics, []⟩ (none, 0) (fun _ _ => trivial) ⟨rfl, rfl⟩
  have h2 := hP.2
  rw [foldl_refCost_eq_faults1] at h2
  exact ⟨st1, hrun, by simpa using h2⟩

/-! ### Well-formedness of reachable `lfu` states -/

theorem lfuStep_wf (frames : Int) (res0 : SimulationResult) (c0 freq0 : List (PageID × Nat))
    (page : PageID) (st1 : LfuState) (h : LfuWf ⟨res0, c0, freq0⟩)
    (hstep : lfuStep frames ⟨res0, c0, freq0⟩ page = some st1) : LfuWf st1 := by
  obtain ⟨hpw, hlt⟩ := h
  dsimp only at hpw hlt
  by_cases hmem : page ∈ c0.map Prod.fst
  · rw [lfuStep_of_mem frames hmem] at hstep
    cases hstep
    refine ⟨hpw, ?_⟩
    intro e he
    have h1 := hlt e he
    simp only [log_state, List.length_append, List.length_singleton]
    omega
  · by_cases hfull : ((c0.length : Nat) : Int) ≥ frames
    · rcases c0 with _ | ⟨x, xs⟩
      · exfalso
        have hf0 : frames ≤ 0 := by simpa using hfull
        simp [lfuStep, hf0] at hstep
      · rw [lfuStep_evict frames hmem hfull] at hstep
        cases hstep
        have hsub : ((x :: xs).eraseP
            (fun e => e.1 == (least_used_entry (bumpFreq freq0 page) x xs).1)).Sublist
            (x :: xs) := List.eraseP_sublist _
        constructor
        · simp only [List.map_append]
          rw [List.pairwise_append]
          refine ⟨(hpw.sublist (hsub.map Prod.snd)), by simp, ?_⟩
          intro a ha b hb
          have hbv : b = res0.log.length + 1 := by simpa using hb
          rcases List.mem_map.mp ha with ⟨e, he, hev⟩
          have he2 : e ∈ x :: xs := hsub.mem he
          have h1 := hlt e he2
          omega
        · intro e he
          simp only [log_state, List.length_append, List.length_singleton]
          rcases List.mem_append.mp he with h1 | h1
          · have he2 : e ∈ x :: xs := hsub.mem h1
            have h2 := hlt e he2
            omega
          · have hev : e = (page, res0.log.length + 1) := by simpa using h1
            rw [hev]
            omega
    · rw [lfuStep_grow frames hmem hfull] at hstep
      cases hstep
      constructor
      · simp only [List.map_append]
        rw [List.pairwise_append]
        refine ⟨hpw, by simp, ?_⟩
        intro a ha b hb
        have hbv : b = res0.log.length := by simpa using hb
        rcases List.mem_map.mp ha with ⟨e, he, hev⟩
        have h1 := hlt e he
        omega
      · intro e he
        simp only [log_state, List.length_append, List.length_singleton]
        rcases List.mem_append.mp he with h1 | h1
        · have h2 := hlt e h1
          omega
        · have hev : e = (page, res0.log.length) := by simpa using h1
          rw [hev]
          omega

theorem lfuRun_wf (frames : Int) : ∀ (refs : List PageID) (st st1 : LfuState),
    LfuWf st → policyRun (fun s p _ => lfuStep frames s p) st refs = some st1 →
    LfuWf st1 := by
  intro refs
  induction refs with
  | nil =>
    intro st st1 h hrun
    rw [policyRun_nil] at hrun
    cases hrun
    exact h
  | cons p rest ih =>
    intro st st1 h hrun
    rw [policyRun_cons] at hrun
    rcases hstep : lfuStep frames st p with _ | st2
    · rw [hstep] at hrun
      simp at hrun
    · rw [hstep] at hrun
      simp only [Option.some_bind] at hrun
      exact ih st2 st1 (lfuStep_wf frames st.res st.cache st.frequency p st2 h hstep) hrun

theorem lfuWf_tag_injective {st : LfuState} (h : LfuWf st) :
    ∀ a ∈ st.cache, ∀ b ∈ st.cache, a.2 = b.2 → a = b := by
  have hnd : (st.cache.map Prod.snd).Nodup := h.1.imp (fun hab => Nat.ne_of_lt hab)
  intro a ha b hb hab
  exact List.inj_on_of_nodup_map hnd ha hb hab

/-! ### Claim theorems -/

/-- C1: for every frame count `frames ≥ 1` and every finite reference
sequence, a full run of each of `fifo`, `lru`, `lfu` and `optimal` completes
and satisfies `page_hits + page_faults = len(reference_string)`. -/
theorem c1_hits_plus_faults (frames : Int) (refs : List PageID) (hf : 1 ≤ frames) :
    (∃ r, fifo frames refs = some r ∧ r.page_hits + r.page_faults = refs.length) ∧
    (∃ r, lru frames refs = some r ∧ r.page_hits + r.page_faults = refs.length) ∧
    (∃ r, lfu frames refs = some r ∧ r.page_hits + r.page_faults = refs.length) ∧
    (∃ r, optimal frames refs = some r ∧ r.page_hits + r.page_faults = refs.length) := by
  obtain ⟨s1, h1, hP1⟩ := fifo_run_total frames hf refs
  obtain ⟨s2, h2, hP2⟩ := lru_run_total frames hf refs
  obtain ⟨s3, h3, hP3⟩ := lfu_run_total frames hf refs
  obtain ⟨s4, h4, hP4⟩ := optimal_run_total frames hf refs
  exact ⟨⟨s1.res, by simp [fifo, h1], hP1.1⟩, ⟨s2.res, by simp [lru, h2], hP2.1⟩,
    ⟨s3.res, by simp [lfu, h3], hP3.1⟩, ⟨s4.res, by simp [optimal, h4], hP4.1⟩⟩

/-- C1 witness at `frames = 2`, `refs = [1, 2, 3]`. -/
theorem c1_hits_plus_faults_witness :
    (1 : Int) ≤ 2 ∧
    ((∃ r, fifo 2 [1, 2, 3] = some r ∧
        r.page_hits + r.page_faults = ([1, 2, 3] : List PageID).length) ∧
     (∃ r, lru 2 [1, 2, 3] = some r ∧
        r.page_hits + r.page_faults = ([1, 2, 3] : List PageID).length) ∧
     (∃ r, lfu 2 [1, 2, 3] = some r ∧
        r.page_hits + r.page_faults = ([1, 2, 3] : List PageID).length) ∧
     (∃ r, optimal 2 [1, 2, 3] = some r ∧
        r.page_hits + r.page_faults = ([1, 2, 3] : List PageID).length)) :=
  ⟨by norm_num, c1_hits_plus_faults 2 [1, 2, 3] (by norm_num)⟩

/-- C6: for every policy and `frames ≥ 1`, the log of a full run splits into
one block per reference, in order; each block is a single snapshot, or a
replacement record immediately followed by that step's snapshot. -/
theorem c6_log_step_chunks (frames : Int) (refs : List PageID) (hf : 1 ≤ frames) :
    (∃ r chunks, fifo frames refs = some r ∧ r.log = List.flatten chunks ∧
      chunks.length = refs.length ∧ ∀ c ∈ chunks, isStepChunk c) ∧
    (∃ r chunks, lru frames refs = some r ∧ r.log = List.flatten chunks ∧
      chunks.length = refs.length ∧ ∀ c ∈ chunks, isStepChunk c) ∧
    (∃ r chunks, lfu frames refs = some r ∧ r.log = List.flatten chunks ∧
      chunks.length = refs.length ∧ ∀ c ∈ chunks, isStepChunk c) ∧
    (∃ r chunks, optimal frames refs = some r ∧ r.log = List.flatten chunks ∧
      chunks.length = refs.length ∧ ∀ c ∈ chunks, isStepChunk c) := by
  obtain ⟨s1, h1, hP1⟩ := fifo_run_total frames hf refs
  obtain ⟨s2, h2, hP2⟩ := lru_run_total frames hf refs
  obtain ⟨s3, h3, hP3⟩ := lfu_run_total frames hf refs
  obtain ⟨s4, h4, hP4⟩ := optimal_run_total frames hf refs
  obtain ⟨ch1, hl1, hn1, hc1⟩ := hP1.2
  obtain ⟨ch2, hl2, hn2, hc2⟩ := hP2.2
  obtain ⟨ch3, hl3, hn3, hc3⟩ := hP3.2
  obtain ⟨ch4, hl4, hn4, hc4⟩ := hP4.2
  exact ⟨⟨s1.res, ch1, by simp [fifo, h1], hl1, hn1, hc1⟩,
    ⟨s2.res, ch2, by simp [lru, h2], hl2, hn2, hc2⟩,
    ⟨s3.res, ch3, by simp [lfu, h3], hl3, hn3, hc3⟩,
    ⟨s4.res, ch4, by simp [optimal, h4], hl4, hn4, hc4⟩⟩

/-- C6 witness at `frames = 2`, `refs = [1, 2, 3]`. -/
theorem c6_log_step_chunks_witness :
    (1 : Int) ≤ 2 ∧
    ((∃ r chunks, fifo 2 [1, 2, 3] = some r ∧ r.log = List.flatten chunks ∧
        chunks.length = ([1, 2, 3] : List PageID).length ∧ ∀ c ∈ chunks, isStepChunk c) ∧
     (∃ r chunks, lru 2 [1, 2, 3] = some r ∧ r.log = List.flatten chunks ∧
        chunks.length = ([1, 2, 3] : List PageID).length ∧ ∀ c ∈ chunks, isStepChunk c) ∧
     (∃ r chunks, lfu 2 [1, 2, 3] = some r ∧ r.log = List.flatten chunks ∧
        chunks.length = ([1, 2, 3] : List PageID).length ∧ ∀ c ∈ chunks, isStepChunk c) ∧
     (∃ r chunks, optimal 2 [1, 2, 3] = some r ∧ r.log = List.flatten chunks ∧
        chunks.length = ([1, 2, 3] : List PageID).length ∧ ∀ c ∈ chunks, isStepChunk c)) :=
  ⟨by norm_num, c6_log_step_chunks 2 [1, 2, 3] (by norm_num)⟩

/-- C5: for `frames ≥ 1`, at every step of every policy's run the resident
set holds at most `frames` pages and at least
`min frames (distinct pages referenced so far)` pages. -/
theorem c5_resident_size_bounds (frames : Int) (refs : List PageID) (hf : 1 ≤ frames) :
    ((fifoTrace frames refs).length = refs.length + 1 ∧
      ∀ i ≤ refs.length, ∃ st, (fifoTrace frames refs).get? i = some st ∧
        (st.queue.length : Int) ≤ frames ∧
        min frames (((refs.take i).toFinset.card : Nat) : Int) ≤ (st.queue.length : Int)) ∧
    ((lruTrace frames refs).length = refs.length + 1 ∧
      ∀ i ≤ refs.length, ∃ st, (lruTrace frames refs).get? i = some st ∧
        (st.cache.length : Int) ≤ frames ∧
        min frames (((refs.take i).toFinset.card : Nat) : Int) ≤ (st.cache.length : Int)) ∧
    ((lfuTrace frames refs).length = refs.length + 1 ∧
      ∀ i ≤ refs.length, ∃ st, (lfuTrace frames refs).get? i = some st ∧
        (st.cache.length : Int) ≤ frames ∧
        min frames (((refs.take i).toFinset.card : Nat) : Int) ≤ (st.cache.length : Int)) ∧
    ((optimalTrace frames refs).length = refs.length + 1 ∧
      ∀ i ≤ refs.length, ∃ st, (optimalTrace frames refs).get? i = some st ∧
        (st.cache.length : Int) ≤ frames ∧
        min frames (((refs.take i).toFinset.card : Nat) : Int) ≤ (st.cache.length : Int)) := by
  obtain ⟨hl1, hs1⟩ := fifo_trace_size frames hf refs
  obtain ⟨hl2, hs2⟩ := lru_trace_size frames hf refs
  obtain ⟨hl3, hs3⟩ := lfu_trace_size frames hf refs
  obtain ⟨hl4, hs4⟩ := optimal_trace_size frames hf refs
  refine ⟨⟨hl1, ?_⟩, ⟨hl2, ?_⟩, ⟨hl3, ?_⟩, ⟨hl4, ?_⟩⟩
  · intro i hi
    obtain ⟨st, hget, hP⟩ := hs1 i hi
    exact ⟨st, hget, by rw [hP.2.2]; exact min_le_left _ _, by rw [hP.2.2]⟩
  · intro i hi
    obtain ⟨st, hget, hP⟩ := hs2 i hi
    exact ⟨st, hget, by rw [hP.2.2]; exact min_le_left _ _, by rw [hP.2.2]⟩
  · intro i hi
    obtain ⟨st, hget, hP⟩ := hs3 i hi
    have hlen : st.cache.length = (st.cache.map Prod.fst).length := by
      rw [List.length_map]
    exact ⟨st, hget, by rw [hlen, hP.2.2]; exact min_le_left _ _, by rw [hlen, hP.2.2]⟩
  · intro i hi
    obtain ⟨st, hget, hP⟩ := hs4 i hi
    exact ⟨st, hget, by rw [hP.2.2]; exact min_le_left _ _, by rw [hP.2.2]⟩

/-- C5 witness at `frames = 2`, `refs = [1, 2, 3]`. -/
theorem c5_resident_size_bounds_witness :
    (1 : Int) ≤ 2 ∧
    (((fifoTrace 2 [1, 2, 3]).length = ([1, 2, 3] : List PageID).length + 1 ∧
      ∀ i ≤ ([1, 2, 3] : List PageID).length, ∃ st,
        (fifoTrace 2 [1, 2, 3]).get? i = some st ∧
        (st.queue.length : Int) ≤ 2 ∧
        min 2 (((([1, 2, 3] : List PageID).take i).toFinset.card : Nat) : Int)
          ≤ (st.queue.length : Int)) ∧
     ((lruTrace 2 [1, 2, 3]).length = ([1, 2, 3] : List PageID).length + 1 ∧
      ∀ i ≤ ([1, 2, 3] : List PageID).length, ∃ st,
        (lruTrace 2 [1, 2, 3]).get? i = some st ∧
        (st.cache.length : Int) ≤ 2 ∧
        min 2 (((([1, 2, 3] : List PageID).take i).toFinset.card : Nat) : Int)
          ≤ (st.cache.length : Int)) ∧
     ((lfuTrace 2 [1, 2, 3]).length = ([1, 2, 3] : List PageID).length + 1 ∧
      ∀ i ≤ ([1, 2, 3] : List PageID).length, ∃ st,
        (lfuTrace 2 [1, 2, 3]).get? i = some st ∧
        (st.cache.length : Int) ≤ 2 ∧
        min 2 (((([1, 2, 3] : List PageID).take i).toFinset.card : Nat) : Int)
          ≤ (st.cache.length : Int)) ∧
     ((optimalTrace 2 [1, 2, 3]).length = ([1, 2, 3] : List PageID).length + 1 ∧
      ∀ i ≤ ([1, 2, 3] : List PageID).length, ∃ st,
        (optimalTrace 2 [1, 2, 3]).get? i = some st ∧
        (st.cache.length : Int) ≤ 2 ∧
        min 2 (((([1, 2, 3] : List PageID).take i).toFinset.card : Nat) : Int)
          ≤ (st.cache.length : Int))) :=
  ⟨by norm_num, c5_resident_size_bounds 2 [1, 2, 3] (by norm_num)⟩

/-- C9: when `frames ≥ 1` covers every distinct page of the reference
sequence, each policy completes with exactly one fault per distinct page and
never logs a replacement. -/
theorem c9_enough_frames_no_evictions (frames : Int) (refs : List PageID)
    (_hf : 1 ≤ frames) (hcap : ((refs.toFinset.card : Nat) : Int) ≤ frames) :
    (∃ r, fifo frames refs = some r ∧ r.page_faults = refs.toFinset.card ∧
      ∀ e ∈ r.log, ∃ s, e = LogEntry.snapshot s) ∧
    (∃ r, lru frames refs = some r ∧ r.page_faults = refs.toFinset.card ∧
      ∀ e ∈ r.log, ∃ s, e = LogEntry.snapshot s) ∧
    (∃ r, lfu frames refs = some r ∧ r.page_faults = refs.toFinset.card ∧
      ∀ e ∈ r.log, ∃ s, e = LogEntry.snapshot s) ∧
    (∃ r, optimal frames refs = some r ∧ r.page_faults = refs.toFinset.card ∧
      ∀ e ∈ r.log, ∃ s, e = LogEntry.snapshot s) := by
  obtain ⟨s1, h1, hP1⟩ := fifo_run_noevict frames refs hcap
  obtain ⟨s2, h2, hP2⟩ := lru_run_noevict frames refs hcap
  obtain ⟨s3, h3, hP3⟩ := lfu_run_noevict frames refs hcap
  obtain ⟨s4, h4, hP4⟩ := optimal_run_noevict frames refs hcap
  exact ⟨⟨s1.res, by simp [fifo, h1], hP1.2.2.2.1, hP1.2.2.2.2⟩,
    ⟨s2.res, by simp [lru, h2], hP2.2.2.2.1, hP2.2.2.2.2⟩,
    ⟨s3.res, by simp [lfu, h3], hP3.2.2.2.1, hP3.2.2.2.2⟩,
    ⟨s4.res, by simp [optimal, h4], hP4.2.2.2.1, hP4.2.2.2.2⟩⟩

/-- C9 witness at `frames = 3`, `refs = [1, 2, 1]` (2 distinct pages). -/
theorem c9_enough_frames_no_evictions_witness :
    ((1 : Int) ≤ 3 ∧ ((([1, 2, 1] : List PageID).toFinset.card : Int) ≤ 3)) ∧
    ((∃ r, fifo 3 [1, 2, 1] = some r ∧
        r.page_faults = ([1, 2, 1] : List PageID).toFinset.card ∧
        ∀ e ∈ r.log, ∃ s, e = LogEntry.snapshot s) ∧
     (∃ r, lru 3 [1, 2, 1] = some r ∧
        r.page_faults = ([1, 2, 1] : List PageID).toFinset.card ∧
        ∀ e ∈ r.log, ∃ s, e = LogEntry.snapshot s) ∧
     (∃ r, lfu 3 [1, 2, 1] = some r ∧
        r.page_faults = ([1, 2, 1] : List PageID).toFinset.card ∧
        ∀ e ∈ r.log, ∃ s, e = LogEntry.snapshot s) ∧
     (∃ r, optimal 3 [1, 2, 1] = some r ∧
        r.page_faults = ([1, 2, 1] : List PageID).toFinset.card ∧
        ∀ e ∈ r.log, ∃ s, e = LogEntry.snapshot s)) :=
  ⟨⟨by norm_num, by decide⟩, c9_enough_frames_no_evictions 3 [1, 2, 1] (by norm_num) (by decide)⟩

/-- C7: with a single frame the four policies complete on every reference
sequence with identical fault counts. -/
theorem c7_single_frame_equal_faults (refs : List PageID) :
    ∃ r1 r2 r3 r4, fifo 1 refs = some r1 ∧ lru 1 refs = some r2 ∧
      lfu 1 refs = some r3 ∧ optimal 1 refs = some r4 ∧
      r1.page_faults = r2.page_faults ∧ r2.page_faults = r3.page_faults ∧
      r3.page_faults = r4.page_faults := by
  obtain ⟨s1, h1, hP1⟩ := fifo_run_one refs
  obtain ⟨s2, h2, hP2⟩ := lru_run_one refs
  obtain ⟨s3, h3, hP3⟩ := lfu_run_one refs
  obtain ⟨s4, h4, hP4⟩ := optimal_run_one refs
  refine ⟨s1.res, s2.res, s3.res, s4.res, by simp [fifo, h1], by simp [lru, h2],
    by simp [lfu, h3], by simp [optimal, h4], ?_, ?_, ?_⟩
  · rw [hP1, hP2]
  · rw [hP2, hP3]
  · rw [hP3, hP4]

/-- C3 counterexample: on `[1,2,3,4,1,2,5,1,2,3]` with 3 frames the `optimal`
policy does NOT produce 7 faults, contrary to the claim. -/
theorem c3_optimal_not_seven_faults :
    (optimal 3 [1, 2, 3, 4, 1, 2, 5, 1, 2, 3]).map SimulationResult.page_faults
      ≠ some 7 := by
  decide

/-- C3 amended: on `[1,2,3,4,1,2,5,1,2,3]` with 3 frames the `optimal`
policy produces 6 faults (the spec's value 7 is the Belady count of the
longer classic sequence `[1,2,3,4,1,2,5,1,2,3,4,5]`, not of this one). -/
theorem c3_optimal_six_faults :
    (optimal 3 [1, 2, 3, 4, 1, 2, 5, 1, 2, 3]).map SimulationResult.page_faults
      = some 6 := by
  decide

/-- C4: `main` performs no validation of `frames`.  With `frames = 0` and a
non-empty reference sequence the first policy (`fifo`) is invoked and aborts
inside its eviction branch (`popleft` on the empty deque), rather than the
input being rejected before any policy runs. -/
theorem c4_no_validation_before_policies :
    main_run 0 [1] = none ∧ fifo 0 [1] = none ∧
    fifoStep 0 ⟨reset_metrics, []⟩ 1 = none := by
  refine ⟨?_, ?_, ?_⟩ <;> rfl

/-- C8: `display_results` divides by `len(reference_string)` with no guard:
on the empty reference sequence every policy completes with zero counts, and
the percentage computation then aborts (`ZeroDivisionError`, modelled as
`none`), so `main` never completes. -/
theorem c8_percentage_division_unguarded :
    fifo 1 [] = some reset_metrics ∧ display_results reset_metrics [] = none ∧
    main_run 1 [] = none := by
  refine ⟨?_, ?_, ?_⟩ <;> rfl

/-- C10: with `frames = 0`, every policy's first iteration on any reference
reaches the eviction branch with an empty resident container and fails there
(`popleft` / `popitem` / `min` / `max` on an empty container), so no policy
returns a completed result on a non-empty reference sequence. -/
theorem c10_zero_frames_first_reference_fails (p : PageID) (rest : List PageID) :
    fifoStep 0 ⟨reset_metrics, []⟩ p = none ∧
    lruStep 0 ⟨reset_metrics, []⟩ p = none ∧
    lfuStep 0 ⟨reset_metrics, [], []⟩ p = none ∧
    (∀ future, optimalStep 0 ⟨reset_metrics, []⟩ p future = none) ∧
    fifo 0 (p :: rest) = none ∧ lru 0 (p :: rest) = none ∧
    lfu 0 (p :: rest) = none ∧ optimal 0 (p :: rest) = none := by
  have h1 : fifoStep 0 ⟨reset_metrics, []⟩ p = none := by
    simp [fifoStep]
  have h2 : lruStep 0 ⟨reset_metrics, []⟩ p = none := by
    simp [lruStep]
  have h3 : lfuStep 0 ⟨reset_metrics, [], []⟩ p = none := by
    simp [lfuStep]
  have h4 : ∀ future, optimalStep 0 ⟨reset_metrics, []⟩ p future = none := by
    intro future
    simp [optimalStep]
  refine ⟨h1, h2, h3, h4, ?_, ?_, ?_, ?_⟩
  · simp [fifo, policyRun_cons, h1]
  · simp [lru, policyRun_cons, h2]
  · simp [lfu, policyRun_cons, h3]
  · simp [optimal, policyRun_cons, h4 rest]

/-- C2: at any reachable `lfu` state (`frames ≥ 1`), one iteration on `page`
increments exactly that page's frequency counter (hit or fault alike, before
and independently of the hit/fault classification, which depends only on
residency); on a fault with a full cache the evicted entry is the strictly
`(frequency, insertion tag)`-lexicographic least resident entry — smallest
frequency, ties broken by the smallest insertion tag — and the incoming page
is inserted with insertion tag equal to the log length at the moment of
insertion (after the replacement record, before the snapshot). -/
theorem c2_lfu_eviction_rule (frames : Int) (hfr : 1 ≤ frames) (done : List PageID)
    (page : PageID) (st : LfuState)
    (hreach : policyRun (fun s q _ => lfuStep frames s q) ⟨reset_metrics, [], []⟩ done
      = some st) :
    ∃ st1, lfuStep frames st page = some st1 ∧
      lookupFreq st1.frequency page = lookupFreq st.frequency page + 1 ∧
      (∀ q, q ≠ page → lookupFreq st1.frequency q = lookupFreq st.frequency q) ∧
      (page ∈ st.cache.map Prod.fst →
        st1.res.page_hits = st.res.page_hits + 1 ∧
        st1.res.page_faults = st.res.page_faults ∧ st1.cache = st.cache) ∧
      (page ∉ st.cache.map Prod.fst → ¬ ((st.cache.length : Int) ≥ frames) →
        st1.res.page_faults = st.res.page_faults + 1 ∧
        st1.cache = st.cache ++ [(page, st.res.log.length)]) ∧
      (page ∉ st.cache.map Prod.fst → ((st.cache.length : Int) ≥ frames) →
        st1.res.page_faults = st.res.page_faults + 1 ∧
        ∃ e, e ∈ st.cache ∧
          (∀ q ∈ st.cache, q ≠ e →
            keyLt (lookupFreq st1.frequency e.1, e.2)
              (lookupFreq st1.frequency q.1, q.2)) ∧
          st1.cache = st.cache.eraseP (fun z => z.1 == e.1) ++
            [(page, st.res.log.length + 1)] ∧
          st1.res.log = st.res.log ++ [LogEntry.replacement e.1 page,
            LogEntry.snapshot (st1.cache.map Prod.fst)]) := by
  have hwf : LfuWf st :=
    lfuRun_wf frames done ⟨reset_metrics, [], []⟩ st ⟨by simp, by simp⟩ hreach
  obtain ⟨res0, c0, freq0⟩ := st
  by_cases hmem : page ∈ c0.map Prod.fst
  · refine ⟨_, lfuStep_of_mem frames hmem, ?_, ?_, ?_, ?_, ?_⟩
    · exact lookupFreq_bump_self page freq0
    · exact fun q hq => lookupFreq_bump_other page q hq freq0
    · exact fun _ => ⟨rfl, rfl, rfl⟩
    · exact fun h2 _ => (h2 hmem).elim
    · exact fun h2 _ => (h2 hmem).elim
  · by_cases hfull : ((c0.length : Nat) : Int) ≥ frames
    · rcases c0 with _ | ⟨x, xs⟩
      · exfalso
        simp at hfull
        omega
      · refine ⟨_, lfuStep_evict frames hmem hfull, ?_, ?_, ?_, ?_, ?_⟩
        · exact lookupFreq_bump_self page freq0
        · exact fun q hq => lookupFreq_bump_other page q hq freq0
        · exact fun h2 => (hmem h2).elim
        · exact fun _ h2 => (h2 hfull).elim
        · intro _ _
          refine ⟨rfl, least_used_entry (bumpFreq freq0 page) x xs,
            least_used_entry_mem (bumpFreq freq0 page) x xs, ?_, rfl, ?_⟩
          · intro q hq hqe
            have hmin := least_used_entry_min (bumpFreq freq0 page) x xs q hq
            have htag : q.2 ≠ (least_used_entry (bumpFreq freq0 page) x xs).2 := by
              intro htag2
              exact hqe (lfuWf_tag_injective hwf q hq
                (least_used_entry (bumpFreq freq0 page) x xs)
                (least_used_entry_mem (bumpFreq freq0 page) x xs) htag2)
            have hkne :
                (lookupFreq (bumpFreq freq0 page)
                    (least_used_entry (bumpFreq freq0 page) x xs).1,
                  (least_used_entry (bumpFreq freq0 page) x xs).2)
                ≠ (lookupFreq (bumpFreq freq0 page) q.1, q.2) := by
              intro hk
              exact htag (congrArg Prod.snd hk).symm
            rcases keyLt_connex hkne with h3 | h3
            · exact h3
            · exact (hmin h3).elim
          · simp [log_state]
    · refine ⟨_, lfuStep_grow frames hmem hfull, ?_, ?_, ?_, ?_, ?_⟩
      · exact lookupFreq_bump_self page freq0
      · exact fun q hq => lookupFreq_bump_other page q hq freq0
      · exact fun h2 => (hmem h2).elim
      · exact fun _ _ => ⟨rfl, rfl⟩
      · exact fun _ h2 => (hfull h2).elim

/-- C2 witness: `frames = 2`, prefix `[1, 2]` reaching the state with cache
`[(1, 0), (2, 1)]`, next reference `3` (a fault with a full cache, evicting
page 1 by the insertion-tag tie-break). -/
theorem c2_lfu_eviction_rule_witness :
    ((1 : Int) ≤ 2 ∧
     policyRun (fun s q _ => lfuStep 2 s q) ⟨reset_metrics, [], []⟩ [1, 2]
       = some ⟨⟨0, 2, [LogEntry.snapshot [1], LogEntry.snapshot [1, 2]]⟩,
               [(1, 0), (2, 1)], [(1, 1), (2, 1)]⟩) ∧
    (∃ st1, lfuStep 2 ⟨⟨0, 2, [LogEntry.snapshot [1], LogEntry.snapshot [1, 2]]⟩,
        [(1, 0), (2, 1)], [(1, 1), (2, 1)]⟩ 3 = some st1 ∧
      lookupFreq st1.frequency 3 = lookupFreq [(1, 1), (2, 1)] 3 + 1 ∧
      (∀ q, q ≠ 3 → lookupFreq st1.frequency q = lookupFreq [(1, 1), (2, 1)] q) ∧
      ((3 : PageID) ∈ ([(1, 0), (2, 1)] : List (PageID × Nat)).map Prod.fst →
        st1.res.page_hits = 0 + 1 ∧ st1.res.page_faults = 2 ∧
        st1.cache = [(1, 0), (2, 1)]) ∧
      ((3 : PageID) ∉ ([(1, 0), (2, 1)] : List (PageID × Nat)).map Prod.fst →
        ¬ ((([(1, 0), (2, 1)] : List (PageID × Nat)).length : Int) ≥ 2) →
        st1.res.page_faults = 2 + 1 ∧
        st1.cache = [(1, 0), (2, 1)] ++
          [(3, ([LogEntry.snapshot [1], LogEntry.snapshot [1, 2]] : List LogEntry).length)]) ∧
      ((3 : PageID) ∉ ([(1, 0), (2, 1)] : List (PageID × Nat)).map Prod.fst →
        (([(1, 0), (2, 1)] : List (PageID × Nat)).length : Int) ≥ 2 →
        st1.res.page_faults = 2 + 1 ∧
        ∃ e, e ∈ ([(1, 0), (2, 1)] : List (PageID × Nat)) ∧
          (∀ q ∈ ([(1, 0), (2, 1)] : List (PageID × Nat)), q ≠ e →
            keyLt (lookupFreq st1.frequency e.1, e.2)
              (lookupFreq st1.frequency q.1, q.2)) ∧
          st1.cache = ([(1, 0), (2, 1)] : List (PageID × Nat)).eraseP
              (fun z => z.1 == e.1) ++
            [(3, ([LogEntry.snapshot [1], LogEntry.snapshot [1, 2]] :
                List LogEntry).length + 1)] ∧
          st1.res.log = [LogEntry.snapshot [1], LogEntry.snapshot [1, 2]] ++
            [LogEntry.replacement e.1 3, LogEntry.snapshot (st1.cache.map Prod.fst)])) :=
  ⟨⟨by norm_num, by decide⟩,
   c2_lfu_eviction_rule 2 (by norm_num) [1, 2] 3
     ⟨⟨0, 2, [LogEntry.snapshot [1], LogEntry.snapshot [1, 2]]⟩,
      [(1, 0), (2, 1)], [(1, 1), (2, 1)]⟩ (by decide)⟩
